import Mathlib

/-!
Verification of the Aura Memory Engine (src/agents/memory) against its
specification.  The Python stores are shallowly embedded: dictionaries become
association lists, wall-clock instants become explicit parameters (rationals
for `datetime` values, strings for ISO timestamps compared lexicographically),
floats become rationals except where the source computes transcendental
functions (exp/log), which are embedded over the reals.  External
collaborators (the ChromaDB vector index, the sentence-transformer embedding
model) are modelled as inputs: their outputs (candidate lists with distances)
are parameters of the operations that consume them.
-/

namespace Aura

/-- Lifecycle status of a memory entity (memory_types.MemoryStatus). -/
inductive MemStatus where
  | ACTIVE
  | ARCHIVED
  | CONSOLIDATED
  | DEPRECATED
deriving DecidableEq

/-- Association-list lookup, the embedding of a Python dict read `d.get(k)`. -/
def alookup {α β : Type} [DecidableEq α] : List (α × β) → α → Option β
  | [], _ => none
  | (k, v) :: rest, key => if k = key then some v else alookup rest key

/-- Association-list write, the embedding of a Python dict write `d[k] = v`:
replaces the value in place if the key is present, otherwise appends
(Python dicts preserve insertion order). -/
def ainsert {α β : Type} [DecidableEq α] : List (α × β) → α → β → List (α × β)
  | [], key, v => [(key, v)]
  | (k, w) :: rest, key, v =>
      if k = key then (k, v) :: rest else (k, w) :: ainsert rest key v

/-- Modify the value stored at a key if present (a read-modify-write on one
dict entry); no effect when the key is absent. -/
def amodify {α β : Type} [DecidableEq α] : List (α × β) → α → (β → β) → List (α × β)
  | [], _, _ => []
  | (k, v) :: rest, key, f =>
      if k = key then (k, f v) :: rest else (k, v) :: amodify rest key f

/-- Sort a list in descending order of a rational-valued key, the embedding of
Python `list.sort(key=..., reverse=True)`. -/
def sortDescBy {α : Type} (key : α → ℚ) (l : List α) : List α :=
  l.insertionSort (fun a b => key b ≤ key a)

/-- Sort a list in descending order of a string-valued key (ISO timestamps
compare lexicographically, which for ISO-8601 strings is chronological). -/
def sortDescByStr {α : Type} (key : α → String) (l : List α) : List α :=
  l.insertionSort (fun a b => key b ≤ key a)

/-!
### memory_types.py — shared value types
-/

/-- memory_types.MemoryScore: the four bounded relevance signals.  The Python
fields are floats; they are embedded as rationals (the recency signal fed into
them is produced by `calculate_recency_score`, embedded separately over the
reals because it is an exponential). -/
structure MemoryScore where
  similarity : ℚ
  importance : ℚ
  recency : ℚ
  access_frequency : ℚ
deriving DecidableEq

/-- MemoryScore.combined_score: similarity * 0.4 + importance * 0.3 +
recency * 0.2 + access_frequency * 0.1. -/
def MemoryScore.combined_score (s : MemoryScore) : ℚ :=
  s.similarity * (4 / 10) + s.importance * (3 / 10) +
    s.recency * (2 / 10) + s.access_frequency * (1 / 10)

/-- memory_types.calculate_recency_score, success path of the try block:
exp(-age_days / decay_days).  (The except branch returning 0.5 on a timestamp
parse failure is outside the scope of the claims.) -/
noncomputable def calculate_recency_score (age_days decay_days : ℝ) : ℝ :=
  Real.exp (-(age_days / decay_days))

/-- memory_types.Episode together with the MemoryMetadata fields the memory
engine reads or writes.  Timestamps are ISO strings (the source compares them
lexicographically); valence and importance are rationals. -/
structure Episode where
  id : String
  timestamp : String
  context : String
  action : String
  outcome : String
  thought_process : String
  entities : List String
  emotional_valence : ℚ
  importance : ℚ
  -- MemoryMetadata
  created_at : String
  updated_at : String
  access_count : ℕ
  last_accessed : Option String
  source : String
  status : MemStatus
  -- back-references added by mark_consolidated (key "consolidated_into")
  consolidated_into : List String
deriving DecidableEq

/-- memory_types.Skill together with the MemoryMetadata fields the procedural
store reads or writes. -/
structure Skill where
  id : String
  name : String
  description : String
  pattern : String
  trigger_conditions : List String
  action_template : String
  success_rate : ℚ
  usage_count : ℕ
  source_episodes : List String
  created_at : String
  updated_at : String
  source : String
deriving DecidableEq

/-- memory_types.KnowledgeTriple together with the MemoryMetadata fields the
knowledge graph reads or writes. -/
structure KTriple where
  id : String
  subject : String
  predicate : String
  object : String
  confidence : ℚ
  source_episode : Option String
  updated_at : String
  source : String
deriving DecidableEq

/-- memory_types.KnowledgeTriple._generate_id: the identifier is derived from
the content string subject:predicate:object.  The truncated sha256 digest is
modelled by the content string itself (deterministic, content-derived, and
with the same collision structure as the pre-hash string). -/
def kgId (s p o : String) : String :=
  "kg_" ++ s ++ ":" ++ p ++ ":" ++ o

/-- memory_types.Skill._generate_id: identifier derived from name:pattern[:50],
modelled like `kgId`. -/
def skId (name pattern : String) : String :=
  "sk_" ++ name ++ ":" ++ pattern.take 50

/-!
### episodic_memory.py / procedural_memory.py — score construction
-/

/-- The MemoryScore recall builds for one candidate episode
(episodic_memory.recall, scoring block): similarity is 1 - distance, recency
is calculate_recency_score of the episode timestamp, access frequency is the
access count normalized by the corpus maximum (0 when that maximum is 0). -/
def recallScore (dist imp rec : ℚ) (count maxAccess : ℕ) : MemoryScore :=
  { similarity := 1 - dist
    importance := imp
    recency := rec
    access_frequency := if (0 : ℚ) < (maxAccess : ℚ) then (count : ℚ) / (maxAccess : ℚ) else 0 }

/-- The MemoryScore find_applicable_skills builds for one candidate skill
(procedural_memory.find_applicable_skills): the skill's success rate stands in
for importance and access frequency is min(usage_count / 100, 1). -/
def findApplicableScore (dist rate rec : ℚ) (usage : ℕ) : MemoryScore :=
  { similarity := 1 - dist
    importance := rate
    recency := rec
    access_frequency := min ((usage : ℚ) / 100) 1 }

/-!
### episodic_memory.py — recall and access statistics
-/

/-- The corpus maximum access count recall recomputes inside its candidate
loop: `max((e metadata access_count for e in cache), default=1)`. -/
def maxAccessOf (cache : List (String × Episode)) : ℕ :=
  match cache.map (fun e => e.2.access_count) with
  | [] => 1
  | x :: xs => xs.foldl max x

/-- episodic_memory.EpisodicMemory._update_access_stats: increment the access
count and stamp last_accessed; no other field changes (the save to disk is
deferred). -/
def bumpAccess (cache : List (String × Episode)) (eid : String) (nowStr : String) :
    List (String × Episode) :=
  amodify cache eid (fun ep =>
    { ep with access_count := ep.access_count + 1, last_accessed := some nowStr })

/-- One candidate step of recall's scoring loop: skip ids missing from the
metadata cache, skip episodes under min_importance, otherwise append the
scored episode (scored against the evolving cache) and update its access
statistics. -/
def recallStep (recencyOf : String → ℚ) (min_importance : ℚ) (nowStr : String)
    (acc : List (Episode × MemoryScore) × List (String × Episode))
    (cand : String × ℚ) : List (Episode × MemoryScore) × List (String × Episode) :=
  match alookup acc.2 cand.1 with
  | none => acc
  | some ep =>
      if ep.importance < min_importance then acc
      else
        (acc.1 ++ [(ep, recallScore cand.2 ep.importance (recencyOf ep.timestamp)
            ep.access_count (maxAccessOf acc.2))],
          bumpAccess acc.2 cand.1 nowStr)

/-- episodic_memory.EpisodicMemory.recall: the candidate (id, distance) rows
come from the external vector index (over-fetched 2k, archived filtered by
the index query); the loop scores candidates and bumps their access stats;
the scored rows are then sorted by combined score descending and truncated to
n_results.  Returns the results together with the updated metadata cache. -/
def recallEpisodes (cache : List (String × Episode)) (candidates : List (String × ℚ))
    (recencyOf : String → ℚ) (nowStr : String) (n_results : ℕ) (min_importance : ℚ) :
    List (Episode × MemoryScore) × List (String × Episode) :=
  let acc := candidates.foldl (recallStep recencyOf min_importance nowStr) ([], cache)
  ((sortDescBy (fun x => x.2.combined_score) acc.1).take n_results, acc.2)

/-- Whether a candidate id passes recall's filters against a cache: present
in the metadata cache and of importance at least min_importance. -/
def passesFilter (cache : List (String × Episode)) (min_importance : ℚ) (eid : String) : Bool :=
  match alookup cache eid with
  | none => false
  | some ep => !(ep.importance < min_importance)

/-- The cache component of one recall candidate step (the scored list does
not influence the cache evolution). -/
def accessStep (min_importance : ℚ) (nowStr : String)
    (c : List (String × Episode)) (cand : String × ℚ) : List (String × Episode) :=
  match alookup c cand.1 with
  | none => c
  | some ep =>
      if ep.importance < min_importance then c else bumpAccess c cand.1 nowStr

/-- Concrete episode used to instantiate theorems about the episodic store. -/
def sampleEpisode : Episode :=
  { id := "e1"
    timestamp := "2026-01-01T00:00:00"
    context := "user asked to install docker"
    action := "install docker compose"
    outcome := "success"
    thought_process := "install via package manager"
    entities := ["docker"]
    emotional_valence := 1 / 2
    importance := 1 / 2
    created_at := "2026-01-01T00:00:00"
    updated_at := "2026-01-01T00:00:00"
    access_count := 0
    last_accessed := none
    source := "user"
    status := MemStatus.ACTIVE
    consolidated_into := [] }

/-- A second concrete episode with a distinct id. -/
def sampleEpisode2 : Episode := { sampleEpisode with id := "e2" }

/-!
### procedural_memory.py — usage recording
-/

/-- procedural_memory.ProceduralMemory.record_usage acting on the skills
cache: increments the usage count and recomputes the success rate as a
usage-weighted running average with weight 1/new_count.  Returns the Python
boolean result together with the new cache. -/
def record_usage (cache : List (String × Skill)) (skill_id : String) (success : Bool)
    (nowStr : String) : Bool × List (String × Skill) :=
  match alookup cache skill_id with
  | none => (false, cache)
  | some sk =>
      let n : ℕ := sk.usage_count + 1
      let newSuccess : ℚ := if success then 1 else 0
      let weight : ℚ := 1 / (n : ℚ)
      let newRate : ℚ := sk.success_rate * (1 - weight) + newSuccess * weight
      (true,
        ainsert cache skill_id
          { sk with usage_count := n, success_rate := newRate, updated_at := nowStr })

/-- Iterated record_usage over a list of outcomes (True = success). -/
def iterate_usage (cache : List (String × Skill)) (skill_id : String)
    (outcomes : List Bool) (nowStr : String) : List (String × Skill) :=
  outcomes.foldl (fun c b => (record_usage c skill_id b nowStr).2) cache

/-- Membership of a rational in the unit interval. -/
def inUnit (x : ℚ) : Prop := 0 ≤ x ∧ x ≤ 1



/-!
### temporal_graph.py — bi-temporal triples
-/

/-- temporal_graph.TemporalTriple.  Instants are rationals (datetime values);
ids are naturals allocated by a counter (modelling uuid4 freshness).  The
free-form metadata dict is not modelled. -/
structure TemporalTriple where
  id : ℕ
  subject : String
  predicate : String
  object : String
  confidence : ℚ
  valid_from : ℚ
  valid_to : Option ℚ
  transaction_time : ℚ
  source : String
  version : ℕ
  supersedes : Option ℕ
deriving DecidableEq

/-- TemporalTriple.is_valid_at: false before valid_from, false strictly after
a non-null valid_to, true otherwise. -/
def TemporalTriple.is_valid_at (t : TemporalTriple) (pt : ℚ) : Bool :=
  if pt < t.valid_from then false
  else
    match t.valid_to with
    | some v => if v < pt then false else true
    | none => true

/-- temporal_graph.TemporalGraph state: the in-memory triples dict, the three
secondary indices (id lists appended in insertion order), the on-disk
append-only jsonl log (one serialized record per saved triple), and the next
fresh id (modelling uuid4 freshness). -/
structure TGState where
  triples : List (ℕ × TemporalTriple)
  subject_index : List (String × List ℕ)
  predicate_index : List (String × List ℕ)
  object_index : List (String × List ℕ)
  log : List TemporalTriple
  nextId : ℕ
deriving DecidableEq

/-- The empty temporal graph (a fresh store with an empty log). -/
def tgEmpty : TGState := ⟨[], [], [], [], [], 0⟩

/-- Append an id under a key of a secondary index (`index[key].append(id)`;
the Python value is a plain list, so duplicates are possible). -/
def indexAppend (idx : List (String × List ℕ)) (key : String) (tid : ℕ) :
    List (String × List ℕ) :=
  match alookup idx key with
  | none => ainsert idx key [tid]
  | some ids => ainsert idx key (ids ++ [tid])

/-- temporal_graph.TemporalGraph._index_triple: store the triple in the dict
and append its id to the three secondary indices. -/
def index_triple (σ : TGState) (t : TemporalTriple) : TGState :=
  { σ with
    triples := ainsert σ.triples t.id t
    subject_index := indexAppend σ.subject_index t.subject t.id
    predicate_index := indexAppend σ.predicate_index t.predicate t.id
    object_index := indexAppend σ.object_index t.object t.id }

/-- temporal_graph.TemporalGraph._save_triple: append one serialized record to
the jsonl log (records are snapshots; later in-memory mutation does not touch
them). -/
def save_triple (σ : TGState) (t : TemporalTriple) : TGState :=
  { σ with log := σ.log ++ [t] }

/-- temporal_graph.TemporalGraph.add: a fresh open-ended (unless valid_to is
given) version-1 triple, indexed and logged. -/
def tg_add (σ : TGState) (s p o : String) (confidence : ℚ)
    (valid_from valid_to : Option ℚ) (source : String) (now : ℚ) : ℕ × TGState :=
  let t : TemporalTriple :=
    { id := σ.nextId, subject := s, predicate := p, object := o,
      confidence := confidence, valid_from := valid_from.getD now,
      valid_to := valid_to, transaction_time := now, source := source,
      version := 1, supersedes := none }
  (t.id, save_triple (index_triple { σ with nextId := σ.nextId + 1 } t) t)

/-- The successor version tg_update builds from the prior version. -/
def updTriple (σ : TGState) (triple_id : ℕ) (old : TemporalTriple)
    (new_object : Option String) (new_confidence : Option ℚ) (valid_to : Option ℚ)
    (now : ℚ) : TemporalTriple :=
  { id := σ.nextId, subject := old.subject, predicate := old.predicate,
    object := new_object.getD old.object,
    confidence := new_confidence.getD old.confidence,
    valid_from := now, valid_to := valid_to, transaction_time := now,
    source := old.source, version := old.version + 1,
    supersedes := some triple_id }

/-- temporal_graph.TemporalGraph.update: close the prior version in memory
(valid_to := now), then index and log a new version with version + 1 and
supersedes set, valid_from = now.  Only the new version is written to the
log. -/
def tg_update (σ : TGState) (triple_id : ℕ) (new_object : Option String)
    (new_confidence : Option ℚ) (valid_to : Option ℚ) (now : ℚ) :
    Option ℕ × TGState :=
  match alookup σ.triples triple_id with
  | none => (none, σ)
  | some old =>
      let σ1 := { σ with
        triples := amodify σ.triples triple_id (fun t => { t with valid_to := some now }) }
      let newT := updTriple σ triple_id old new_object new_confidence valid_to now
      (some newT.id, save_triple (index_triple { σ1 with nextId := σ1.nextId + 1 } newT) newT)

/-- temporal_graph.TemporalGraph.invalidate: close the version in memory;
nothing is written to the log. -/
def tg_invalidate (σ : TGState) (triple_id : ℕ) (now : ℚ) : Bool × TGState :=
  if (alookup σ.triples triple_id).isSome then
    (true, { σ with
      triples := amodify σ.triples triple_id (fun t => { t with valid_to := some now }) })
  else (false, σ)

/-- Index-membership test for one optional query filter.  A present filter
whose key is missing from the index empties the candidate set. -/
def tgKeep (filt : Option String) (idx : List (String × List ℕ)) (tid : ℕ) : Bool :=
  match filt with
  | none => true
  | some s => ((alookup idx s).getD []).contains tid

/-- temporal_graph.TemporalGraph.query_at_time: intersect the candidate id set
with each provided filter's index entry, then keep the triples valid at the
instant.  The Python candidate set is unordered; the model lists results in
dict insertion order.  (An empty-string Python filter is falsy and means no
filter; the model takes filters already resolved to Option.) -/
def query_at_time (σ : TGState) (pt : ℚ) (subject predicate obj : Option String) :
    List TemporalTriple :=
  σ.triples.filterMap (fun e =>
    if tgKeep subject σ.subject_index e.1 && tgKeep predicate σ.predicate_index e.1 &&
        tgKeep obj σ.object_index e.1 && e.2.is_valid_at pt
    then some e.2 else none)

/-- temporal_graph.TemporalGraph._load: rebuild the in-memory state by
indexing every record of the log in order.  The log file itself is untouched
by a load; the reconstructed state's id counter plays no further role in the
claims. -/
def tg_load (log : List TemporalTriple) : TGState :=
  log.foldl index_triple { tgEmpty with log := log }

/-- Well-formedness of a temporal-graph state: dict keys are unique, below the
id counter, and each stored triple records its own key as id. -/
def TGWF (σ : TGState) : Prop :=
  (σ.triples.map Prod.fst).Nodup ∧
    ∀ e ∈ σ.triples, e.2.id = e.1 ∧ e.1 < σ.nextId

/-- At most one open (valid_to = null) version per (subject, predicate) pair
among the stored triples. -/
def openUnique (σ : TGState) : Prop :=
  ∀ e1 ∈ σ.triples, ∀ e2 ∈ σ.triples,
    e1.2.subject = e2.2.subject → e1.2.predicate = e2.2.predicate →
    e1.2.valid_to = none → e2.2.valid_to = none → e1.1 = e2.1

/-- Trace used by the temporal-graph theorems: one open fact added at time 0. -/
def tgDemo1 : TGState := (tg_add tgEmpty "a" "b" "c" 1 none none "src" 0).2

/-- The record tg_add writes for the tgDemo1 fact. -/
def tgRec1 : TemporalTriple :=
  { id := 0, subject := "a", predicate := "b", object := "c", confidence := 1,
    valid_from := 0, valid_to := none, transaction_time := 0, source := "src",
    version := 1, supersedes := none }

/-- Trace: tgDemo1 after superseding fact 0 at time 1 (new version 1). -/
def tgDemo2 : TGState := (tg_update tgDemo1 0 (some "d") none none 1).2

/-- Trace: tgDemo2 after updating the already superseded fact 0 again at
time 2 (new version 2). -/
def tgDemo3 : TGState := (tg_update tgDemo2 0 (some "e") none none 2).2

/-!
### hybrid_search.py — BM25 lexical ranking (real-valued: idf is a logarithm)
-/

/-- The idf table BM25.fit builds: ln((n - df + 0.5)/(df + 0.5) + 1) for every
term occurring in the corpus (df ≥ 1); unknown terms read 0
(`self.idf.get(term, 0.0)` in BM25.score). -/
noncomputable def bm25_idf (n : ℕ) (df : String → ℕ) (term : String) : ℝ :=
  if df term = 0 then 0
  else Real.log (((n : ℝ) - (df term : ℝ) + 1 / 2) / ((df term : ℝ) + 1 / 2) + 1)

/-- One query term's contribution to BM25.score: terms absent from the
document are skipped (contribute 0); otherwise
idf * (tf * (k1+1)) / (tf + k1 * (1 - b + b * dl / avgdl)). -/
noncomputable def bm25_term_score (idfv : ℝ) (tf : ℕ) (k1 b dl avgdl : ℝ) : ℝ :=
  if tf = 0 then 0
  else idfv * ((tf : ℝ) * (k1 + 1)) / ((tf : ℝ) + k1 * (1 - b + b * dl / avgdl))

/-- BM25.score: the sum over the query's tokens (with multiplicity, as the
source iterates `for term in query_tokens`) of the per-term contribution.
`tf` is the document's term-frequency table (`Counter(doc_tokens)`), `dl` the
document length and `avgdl` the corpus average document length. -/
noncomputable def bm25_score (queryTokens : List String) (tf : String → ℕ)
    (n : ℕ) (df : String → ℕ) (k1 b dl avgdl : ℝ) : ℝ :=
  (queryTokens.map (fun t => bm25_term_score (bm25_idf n df t) (tf t) k1 b dl avgdl)).sum

/-- Adding one occurrence of a term to a document's term-frequency table. -/
def bumpTf (tf : String → ℕ) (t0 : String) : String → ℕ :=
  fun t => if t = t0 then tf t + 1 else tf t

/-!
### hybrid_search.py — score fusion
-/

/-- Result record built by hybrid_search.HybridSearchEngine.search (the
per-result metadata dict is not modelled). -/
structure HybridResult where
  id : String
  content : String
  bm25_score : ℚ
  vector_score : ℚ
  combined_score : ℚ
deriving DecidableEq

/-- Maximum of a list of rationals with a default for the empty list,
matching Python `max(vals) if vals else default`. -/
def listMaxD (l : List ℚ) (default : ℚ) : ℚ :=
  match l with
  | [] => default
  | x :: xs => xs.foldl max x

/-- hybrid_search.BM25.search: score every indexed document, keep those with
positive score, sort descending and truncate to top_k.  The per-document BM25
scores are supplied by `scoreOf` (BM25.score is real-valued; the fusion layer
treats them as opaque numbers, so the fusion claims hold for every scorer). -/
def bm25_search (docs : List (String × String)) (scoreOf : ℕ → ℚ) (top_k : ℕ) :
    List (String × String × ℚ) :=
  let scores := (List.range docs.length).filterMap (fun idx =>
    match docs.get? idx with
    | some (did, content) =>
        if 0 < scoreOf idx then some (did, content, scoreOf idx) else none
    | none => none)
  (sortDescBy (fun x => x.2.2) scores).take top_k

/-- hybrid_search.HybridSearchEngine._normalize_scores: min-max normalization
to [0,1].  Defined in the source but never invoked by search. -/
def normalize_scores (scores : List ℚ) : List ℚ :=
  match scores with
  | [] => []
  | x :: xs =>
      let min_s := xs.foldl min x
      let max_s := xs.foldl max x
      if max_s = min_s then (x :: xs).map (fun _ => 1)
      else (x :: xs).map (fun s => (s - min_s) / (max_s - min_s))

/-- The BM25 score dictionary search builds: BM25 over-fetches top_k * 2
candidates. -/
def hybrid_bm25_scores (docs : List (String × String)) (scoreOf : ℕ → ℚ) (top_k : ℕ) :
    List (String × ℚ) :=
  (bm25_search docs scoreOf (top_k * 2)).map (fun x => (x.1, x.2.2))

/-- The vector score dictionary search builds from the external vector
index's (id, cosine distance) rows: similarity is 1 - distance. -/
def hybrid_vector_scores (vector : List (String × ℚ)) : List (String × ℚ) :=
  vector.map (fun x => (x.1, 1 - x.2))

/-- The per-ranker normalization search actually performs:
`score / max if max > 0 else 0`. -/
def normMax (x maxv : ℚ) : ℚ := if 0 < maxv then x / maxv else 0

/-- The value list of a ranker's score dictionary, with an empty dictionary
reading as [0] (`vals = list(scores.values()) if scores else [0]`). -/
def scoreVals (l : List (String × ℚ)) : List ℚ :=
  match l with
  | [] => [0]
  | _ => l.map Prod.snd

/-- The BM25 normalization denominator: max of the BM25 score set. -/
def hybrid_bm25_max (docs : List (String × String)) (scoreOf : ℕ → ℚ) (top_k : ℕ) : ℚ :=
  listMaxD (scoreVals (hybrid_bm25_scores docs scoreOf top_k)) 1

/-- The vector normalization denominator, built the same way. -/
def hybrid_vector_max (vector : List (String × ℚ)) : ℚ :=
  listMaxD (scoreVals (hybrid_vector_scores vector)) 1

/-- The fused, min_score-filtered candidate rows of search (before the final
sort and truncation): every id present in either ranker's result set receives
bm25_weight * (bm25 / bm25_max) + vector_weight * (vector / vector_max), with
0 substituted for a missing signal (`scores.get(doc_id, 0)`).  The union of
ids is a Python set; its iteration order is modelled as first occurrence. -/
def hybrid_fused (docs : List (String × String)) (scoreOf : ℕ → ℚ)
    (vector : List (String × ℚ)) (bm25_weight vector_weight : ℚ)
    (top_k : ℕ) (min_score : ℚ) : List HybridResult :=
  let bs := hybrid_bm25_scores docs scoreOf top_k
  let vs := hybrid_vector_scores vector
  let all_ids := (bs.map Prod.fst ++ vs.map Prod.fst).dedup
  all_ids.filterMap (fun did =>
    let bm25_s := normMax ((alookup bs did).getD 0) (hybrid_bm25_max docs scoreOf top_k)
    let vector_s := normMax ((alookup vs did).getD 0) (hybrid_vector_max vector)
    let combined := bm25_weight * bm25_s + vector_weight * vector_s
    if min_score ≤ combined then
      some { id := did, content := (alookup docs did).getD ""
             bm25_score := bm25_s, vector_score := vector_s, combined_score := combined }
    else none)

/-- hybrid_search.HybridSearchEngine.search: fuse the two rankers' over-fetched
results, drop rows under min_score, sort by combined score descending and
truncate to top_k. -/
def hybrid_search (docs : List (String × String)) (scoreOf : ℕ → ℚ)
    (vector : List (String × ℚ)) (bm25_weight vector_weight : ℚ)
    (top_k : ℕ) (min_score : ℚ) : List HybridResult :=
  (sortDescBy HybridResult.combined_score
    (hybrid_fused docs scoreOf vector bm25_weight vector_weight top_k min_score)).take top_k

/-- Concrete skill used to instantiate theorems about the procedural store. -/
def sampleSkill : Skill :=
  { id := "sk_demo:install"
    name := "demo"
    description := "a demo skill"
    pattern := "install"
    trigger_conditions := ["install"]
    action_template := "install"
    success_rate := 1 / 2
    usage_count := 3
    source_episodes := []
    created_at := "2026-01-01T00:00:00"
    updated_at := "2026-01-01T00:00:00"
    source := "consolidation" }

/-!
### knowledge_graph.py — triples with structural identity
-/

/-- Knowledge-graph state: the JSON graph (id to triple) and the three
secondary indices mapping lower-cased subject / object / predicate to the set
of triple ids (Python sets of ids, embedded as duplicate-free lists). -/
structure KGState where
  graph : List (String × KTriple)
  subject_index : List (String × List String)
  object_index : List (String × List String)
  predicate_index : List (String × List String)
deriving DecidableEq

/-- The empty knowledge graph (a fresh store directory). -/
def kgEmpty : KGState := ⟨[], [], [], []⟩

/-- Add an id to one secondary index under a key (`index[key].add(id)`):
set semantics, no duplicate entries. -/
def indexAdd (idx : List (String × List String)) (key tid : String) :
    List (String × List String) :=
  match alookup idx key with
  | none => ainsert idx key [tid]
  | some ids => ainsert idx key (if tid ∈ ids then ids else ids ++ [tid])

/-- Whether a stored triple matches a (subject, predicate, object) case
insensitively — the structural identity used by _find_existing_triple. -/
def structMatch (t : KTriple) (s p o : String) : Bool :=
  t.subject.toLower == s.toLower && t.predicate.toLower == p.toLower &&
    t.object.toLower == o.toLower

/-- The per-id test _find_existing_triple applies while scanning the subject
index: the stored predicate and object must match case-insensitively.  An id
dangling out of the graph dict reads as an empty record
(`self._graph.get(triple_id, {})`), whose empty fields match only empty
filter strings. -/
def existingCheck (graph : List (String × KTriple)) (p o : String) (tid : String) : Bool :=
  match alookup graph tid with
  | some t => t.predicate.toLower == p.toLower && t.object.toLower == o.toLower
  | none => "" == p.toLower && "" == o.toLower

/-- knowledge_graph.KnowledgeGraph._find_existing_triple: scan the ids indexed
under the lower-cased subject and return the first passing existingCheck. -/
def find_existing_triple (σ : KGState) (s p o : String) : Option String :=
  ((alookup σ.subject_index s.toLower).getD []).find? (existingCheck σ.graph p o)

/-- knowledge_graph.KnowledgeGraph.add_triple: if a structurally identical
triple exists, raise its confidence to the max of old and new (strictly
greater writes only) and return the existing id; otherwise insert the new
triple into the graph and the three secondary indices.  The ChromaDB upsert
mirrors the graph write and is not part of the modelled state. -/
def add_triple (σ : KGState) (s p o : String) (confidence : ℚ)
    (source_episode : Option String) (nowStr : String) : String × KGState :=
  match find_existing_triple σ s p o with
  | some existing_id =>
      if ((alookup σ.graph existing_id).map KTriple.confidence).getD 0 < confidence then
        (existing_id,
          { σ with graph :=
              amodify σ.graph existing_id (fun t =>
                { t with confidence := confidence, updated_at := nowStr }) })
      else (existing_id, σ)
  | none =>
      let tid := kgId s p o
      let t : KTriple :=
        { id := tid, subject := s, predicate := p, object := o,
          confidence := confidence, source_episode := source_episode,
          updated_at := nowStr,
          source := if source_episode.isSome then "extraction" else "user" }
      (tid,
        { graph := ainsert σ.graph tid t
          subject_index := indexAdd σ.subject_index s.toLower tid
          object_index := indexAdd σ.object_index o.toLower tid
          predicate_index := indexAdd σ.predicate_index p.toLower tid })

/-- The record inserted by the fresh branch of add_triple. -/
def freshTriple (s p o : String) (confidence : ℚ) (source_episode : Option String)
    (nowStr : String) : KTriple :=
  { id := kgId s p o, subject := s, predicate := p, object := o,
    confidence := confidence, source_episode := source_episode,
    updated_at := nowStr,
    source := if source_episode.isSome then "extraction" else "user" }

/-- All four sub-signals and the combined score of a MemoryScore lie in the
unit interval. -/
def scoreInUnit (s : MemoryScore) : Prop :=
  inUnit s.similarity ∧ inUnit s.importance ∧ inUnit s.recency ∧
    inUnit s.access_frequency ∧ inUnit s.combined_score

/-!
### memory_consolidator.py — batch consolidation
-/

/-- A value of the ConsolidationResult details dict: the source stores either
a message string or a count there. -/
inductive DetailValue where
  | s (v : String)
  | n (v : ℕ)
deriving DecidableEq

/-- memory_types.ConsolidationResult. -/
structure ConsolidationResult where
  episodes_processed : ℕ
  skills_created : ℕ
  skills_updated : ℕ
  triples_extracted : ℕ
  episodes_archived : ℕ
  timestamp : String
  details : List (String × DetailValue)
deriving DecidableEq

/-- The stores a MemoryConsolidator owns: the episodic metadata cache, the
procedural skills cache, the knowledge graph, and the consolidation log
directory (one immutable record per run, in order). -/
structure MemSystem where
  episodic : List (String × Episode)
  skills : List (String × Skill)
  kg : KGState
  logs : List ConsolidationResult
deriving DecidableEq

/-- Python str.split(): whitespace tokenization discarding empty tokens
(modelled on single spaces). -/
def pySplit (s : String) : List String :=
  (s.splitOn " ").filter (fun w => !(w == ""))

/-- episodic_memory.EpisodicMemory.get_successful_episodes: ACTIVE episodes
with valence at least min_valence, sorted by valence descending, first
`limit`. -/
def get_successful_episodes (cache : List (String × Episode)) (min_valence : ℚ)
    (limit : ℕ) : List Episode :=
  (sortDescBy Episode.emotional_valence
    ((cache.map Prod.snd).filter (fun ep =>
      decide (min_valence ≤ ep.emotional_valence) && (ep.status == MemStatus.ACTIVE)))).take
    limit

/-- memory_consolidator._group_by_pattern's grouping key: the first three
whitespace tokens of the lower-cased action joined by underscores; "unknown"
for an empty token list. -/
def pattern_key (action : String) : String :=
  match (pySplit action.toLower).take 3 with
  | [] => "unknown"
  | ws => String.intercalate "_" ws

/-- memory_consolidator._group_by_pattern: group episodes by pattern_key,
keys in first-occurrence order, each group in episode order. -/
def group_by_pattern (eps : List Episode) : List (String × List Episode) :=
  eps.foldl (fun groups ep =>
    let key := pattern_key ep.action
    match alookup groups key with
    | none => groups ++ [(key, [ep])]
    | some l => ainsert groups key (l ++ [ep])) []

/-- memory_consolidator._find_common_pattern: keep the first text's words
whose lower-casing appears in every text's lower-cased word set; fall back to
the first 100 characters of the first text when nothing is kept. -/
def find_common_pattern (texts : List String) : String :=
  match texts with
  | [] => ""
  | t0 :: rest =>
      let word_sets : List (List String) := (t0 :: rest).map (fun t => pySplit t.toLower)
      let common : List String := match word_sets with
        | [] => []
        | w0 :: ws => ws.foldl (fun (acc s : List String) =>
            acc.filter (fun w => s.contains w)) w0
      let pattern := String.intercalate " "
        ((pySplit t0).filter (fun w => common.contains w.toLower))
      if pattern == "" then t0.take 100 else pattern

/-- memory_consolidator._extract_trigger_conditions: lower-cased words longer
than three characters whose occurrence count (with multiplicity, over all
contexts) reaches half the number of contexts; first five in first-occurrence
order. -/
def extract_trigger_conditions (contexts : List String) : List String :=
  let words := (contexts.map (fun ctx =>
    (pySplit ctx.toLower).filter (fun w => decide (3 < w.length)))).flatten
  ((words.eraseDups).filter (fun w => decide (contexts.length ≤ 2 * words.count w))).take 5

/-- procedural_memory.ProceduralMemory.get_skill_by_name: first skill in the
cache with the given name. -/
def get_skill_by_name (skills : List (String × Skill)) (name : String) : Option Skill :=
  (skills.map Prod.snd).find? (fun sk => sk.name == name)

/-- procedural_memory.ProceduralMemory.store on the skills cache (the
ChromaDB upsert mirrors it). -/
def skill_store (skills : List (String × Skill)) (sk : Skill) : List (String × Skill) :=
  ainsert skills sk.id sk

/-- procedural_memory.ProceduralMemory.create_skill. -/
def create_skill (skills : List (String × Skill)) (name description pattern : String)
    (trigger_conditions : List String) (action_template : String)
    (source_episodes : List String) (success_rate : ℚ) (nowStr : String) :
    String × List (String × Skill) :=
  let sk : Skill :=
    { id := skId name pattern, name := name, description := description,
      pattern := pattern, trigger_conditions := trigger_conditions,
      action_template := action_template, success_rate := success_rate,
      usage_count := 0, source_episodes := source_episodes,
      created_at := nowStr, updated_at := nowStr, source := "consolidation" }
  (sk.id, skill_store skills sk)

/-- procedural_memory.ProceduralMemory.update_skill: overwrite the truthy
(non-empty) fields, stamp updated_at, re-store. -/
def update_skill (skills : List (String × Skill)) (skill_id : String)
    (pattern : String) (trigger_conditions : List String) (action_template : String)
    (nowStr : String) : Bool × List (String × Skill) :=
  match alookup skills skill_id with
  | none => (false, skills)
  | some sk =>
      let sk1 := if pattern == "" then sk else { sk with pattern := pattern }
      let sk2 := if trigger_conditions.isEmpty then sk1
        else { sk1 with trigger_conditions := trigger_conditions }
      let sk3 := if action_template == "" then sk2
        else { sk2 with action_template := action_template }
      (true, skill_store skills { sk3 with updated_at := nowStr })

/-- procedural_memory.ProceduralMemory.add_source_episode: append the episode
id if absent. -/
def add_source_episode (skills : List (String × Skill)) (skill_id episode_id : String)
    (nowStr : String) : List (String × Skill) :=
  match alookup skills skill_id with
  | none => skills
  | some sk =>
      if episode_id ∈ sk.source_episodes then skills
      else ainsert skills skill_id
        { sk with
          source_episodes := sk.source_episodes ++ [episode_id]
          updated_at := nowStr }

/-- episodic_memory.EpisodicMemory.mark_consolidated: flip each present
episode to CONSOLIDATED, stamp updated_at, and append the skill id to its
consolidated_into back-references; returns the count updated. -/
def mark_consolidated (cache : List (String × Episode)) (episode_ids : List String)
    (skill_id : String) (nowStr : String) : ℕ × List (String × Episode) :=
  episode_ids.foldl (fun acc eid =>
    match alookup acc.2 eid with
    | none => acc
    | some ep =>
        (acc.1 + 1, ainsert acc.2 eid
          { ep with
            status := MemStatus.CONSOLIDATED
            updated_at := nowStr
            consolidated_into := ep.consolidated_into ++ [skill_id] })) (0, cache)

/-- knowledge_graph.KnowledgeGraph.extract_triples_from_text with the regex
mining front-end supplied as `extractMatches` (the (subject, predicate,
object) matches of the six fixed patterns, in order); each match is added via
add_triple with confidence 0.7. -/
def extract_triples_from_text (σ : KGState)
    (extractMatches : String → List (String × String × String)) (text : String)
    (source_episode : Option String) (nowStr : String) : List String × KGState :=
  (extractMatches text).foldl (fun acc m =>
    let r := add_triple acc.2 m.1 m.2.1 m.2.2 (7 / 10) source_episode nowStr
    (acc.1 ++ [r.1], r.2)) ([], σ)

/-- memory_consolidator._extract_knowledge_from_episode: dry runs extract
nothing; otherwise mine the concatenated episode text and add one
mentioned_in triple (confidence 0.9) per named entity. -/
def extract_knowledge_from_episode (σ : KGState)
    (extractMatches : String → List (String × String × String)) (ep : Episode)
    (dry_run : Bool) (nowStr : String) : ℕ × KGState :=
  if dry_run then (0, σ)
  else
    let text := ep.context ++ ". " ++ ep.action ++ ". " ++ ep.outcome
    let r := extract_triples_from_text σ extractMatches text (some ep.id) nowStr
    ep.entities.foldl (fun acc entity =>
      let r2 := add_triple acc.2 entity "mentioned_in" ("episode_" ++ ep.id.take 8)
        (9 / 10) (some ep.id) nowStr
      (acc.1 + 1, r2.2)) (r.1.length, r.2)

/-- episodic_memory.EpisodicMemory.get_recent_episodes: non-archived episodes
by timestamp descending (ISO strings compare chronologically), first
`limit`. -/
def get_recent_episodes (cache : List (String × Episode)) (limit : ℕ) : List Episode :=
  (sortDescByStr Episode.timestamp
    ((cache.map Prod.snd).filter (fun ep => !(ep.status == MemStatus.ARCHIVED)))).take limit

/-- episodic_memory.EpisodicMemory.archive_episode. -/
def archive_episode (cache : List (String × Episode)) (episode_id : String)
    (nowStr : String) : Bool × List (String × Episode) :=
  match alookup cache episode_id with
  | none => (false, cache)
  | some ep =>
      (true, ainsert cache episode_id
        { ep with status := MemStatus.ARCHIVED, updated_at := nowStr })

/-- memory_consolidator._archive_old_consolidated: archive the CONSOLIDATED
episodes among the 1000 most recent whose timestamp is before the cutoff. -/
def archive_old_consolidated (cache : List (String × Episode)) (cutoff_iso : String)
    (nowStr : String) : ℕ × List (String × Episode) :=
  (get_recent_episodes cache 1000).foldl (fun acc ep =>
    if (ep.status == MemStatus.CONSOLIDATED) && decide (ep.timestamp < cutoff_iso) then
      let r := archive_episode acc.2 ep.id nowStr
      (if r.1 then acc.1 + 1 else acc.1, r.2)
    else acc) (0, cache)

/-- The per-group outcome of _consolidate_pattern_to_skill. -/
structure SkillStepResult where
  created : Bool
  updated : Bool
  skill_id : Option String
deriving DecidableEq

/-- memory_consolidator._consolidate_pattern_to_skill, with the regex
placeholder substitution _generalize_action supplied as the pure text
transform `generalize`.  Dry runs report what would happen without touching
the skills cache. -/
def consolidate_pattern_to_skill (skills : List (String × Skill))
    (generalize : String → String) (pkey : String) (eps : List Episode)
    (dry_run : Bool) (nowStr : String) : SkillStepResult × List (String × Skill) :=
  let avg_valence : ℚ := (eps.map Episode.emotional_valence).sum / (eps.length : ℚ)
  let skill_name := "skill_" ++ pkey
  let description := "Pattern appris depuis " ++ toString eps.length ++ " épisodes réussis"
  let common_action := find_common_pattern (eps.map Episode.action)
  let trigger_conditions := extract_trigger_conditions (eps.map Episode.context)
  let action_template := generalize common_action
  match get_skill_by_name skills skill_name with
  | some existing =>
      if dry_run then
        ({ created := false, updated := true, skill_id := some existing.id }, skills)
      else
        let r1 := update_skill skills existing.id common_action trigger_conditions
          action_template nowStr
        let skills2 := eps.foldl (fun s ep => add_source_episode s existing.id ep.id nowStr)
          r1.2
        ({ created := false, updated := true, skill_id := some existing.id }, skills2)
  | none =>
      if dry_run then
        ({ created := true, updated := false, skill_id := none }, skills)
      else
        let r := create_skill skills skill_name description common_action trigger_conditions
          action_template (eps.map Episode.id) avg_valence nowStr
        ({ created := true, updated := false, skill_id := some r.1 }, r.2)

/-- Resolution of `min_episodes or MEMORY_CONFIG["consolidation_threshold"]`
(Python `or`: both None and 0 fall back to the default 10). -/
def resolve_min_episodes (m : Option ℕ) : ℕ :=
  match m with
  | none => 10
  | some 0 => 10
  | some n => n

/-- Accumulator of consolidate's group loop. -/
structure ConsAcc where
  episodic : List (String × Episode)
  skills : List (String × Skill)
  created : ℕ
  updated : ℕ
deriving DecidableEq

/-- One group step of consolidate (steps 3-4): groups under the minimum
occurrence count (MEMORY_CONFIG min_skill_occurrences = 3) are skipped;
otherwise the group becomes or updates a skill and, outside dry runs, its
episodes are marked CONSOLIDATED under the skill id. -/
def consolidate_group_step (generalize : String → String) (dry_run : Bool) (nowStr : String)
    (acc : ConsAcc) (g : String × List Episode) : ConsAcc :=
  if g.2.length < 3 then acc
  else
    let r := consolidate_pattern_to_skill acc.skills generalize g.1 g.2 dry_run nowStr
    let acc1 : ConsAcc :=
      { acc with
        skills := r.2
        created := if r.1.created then acc.created + 1 else acc.created
        updated := if r.1.updated then acc.updated + 1 else acc.updated }
    match r.1.skill_id with
    | some sid =>
        if dry_run then acc1
        else { acc1 with
          episodic := (mark_consolidated acc1.episodic (g.2.map Episode.id) sid nowStr).2 }
    | none => acc1

/-- Step 5 of consolidate: fold knowledge extraction over the successful
episodes, counting created triples. -/
def consolidate_extract (extractMatches : String → List (String × String × String))
    (dry_run : Bool) (nowStr : String) (kg : KGState) (successful : List Episode) :
    ℕ × KGState :=
  successful.foldl (fun a ep =>
    let r := extract_knowledge_from_episode a.2 extractMatches ep dry_run nowStr
    (a.1 + r.1, r.2)) (0, kg)

/-- memory_consolidator.MemoryConsolidator.consolidate: fetch the successful
episodes (bounded take of 100); abort with a zero result and a message when
fewer than the threshold; otherwise group, consolidate groups into skills,
extract knowledge triples, archive old consolidated episodes (skipped in dry
runs), and append the ConsolidationResult to the log — the log write is
unconditional in the source, dry run or not. -/
def consolidate (sys : MemSystem) (generalize : String → String)
    (extractMatches : String → List (String × String × String))
    (min_episodes : Option ℕ) (min_valence : ℚ) (dry_run : Bool)
    (nowStr cutoff_iso : String) : ConsolidationResult × MemSystem :=
  let minE := resolve_min_episodes min_episodes
  let successful := get_successful_episodes sys.episodic min_valence 100
  if successful.length < minE then
    ({ episodes_processed := 0, skills_created := 0, skills_updated := 0,
       triples_extracted := 0, episodes_archived := 0, timestamp := nowStr,
       details := [("message", DetailValue.s ("Pas assez d\x27épisodes ("
         ++ toString successful.length ++ " < " ++ toString minE ++ ")"))] }, sys)
  else
    let groups := group_by_pattern successful
    let acc := groups.foldl (consolidate_group_step generalize dry_run nowStr)
      { episodic := sys.episodic, skills := sys.skills, created := 0, updated := 0 }
    let kgAcc := consolidate_extract extractMatches dry_run nowStr sys.kg successful
    let arch := if dry_run then (0, acc.episodic)
      else archive_old_consolidated acc.episodic cutoff_iso nowStr
    let result : ConsolidationResult :=
      { episodes_processed := successful.length, skills_created := acc.created,
        skills_updated := acc.updated, triples_extracted := kgAcc.1,
        episodes_archived := arch.1, timestamp := nowStr,
        details := [("pattern_groups", DetailValue.n groups.length)] }
    (result,
      { episodic := arch.2, skills := acc.skills, kg := kgAcc.2,
        logs := sys.logs ++ [result] })

/-- The empty memory system. -/
def sysEmpty : MemSystem := ⟨[], [], kgEmpty, []⟩

/-- A successful episode with integer valence (for concrete instantiation). -/
def sampleEpisode3 : Episode :=
  { sampleEpisode with id := "e3", emotional_valence := 1, importance := 1 }

/-- A memory system holding one successful ACTIVE episode. -/
def sysDemo : MemSystem := ⟨[("e3", sampleEpisode3)], [], kgEmpty, []⟩

end Aura

namespace Aura

theorem alookup_ainsert_self {α β : Type} [DecidableEq α] (l : List (α × β)) (k : α) (v : β) :
    alookup (ainsert l k v) k = some v := by
  induction l with
  | nil => simp [ainsert, alookup]
  | cons hd tl ih =>
      obtain ⟨k', v'⟩ := hd
      by_cases h : k' = k
      · subst h; simp [ainsert, alookup]
      · simp [ainsert, alookup, h, ih]

theorem alookup_ainsert_ne {α β : Type} [DecidableEq α] (l : List (α × β)) (k k' : α) (v : β)
    (h : k ≠ k') : alookup (ainsert l k v) k' = alookup l k' := by
  induction l with
  | nil => simp [ainsert, alookup, h]
  | cons hd tl ih =>
      obtain ⟨k₀, v₀⟩ := hd
      by_cases h0 : k₀ = k
      · subst h0; simp [ainsert, alookup, h]
      · simp only [ainsert, if_neg h0, alookup]
        by_cases h1 : k₀ = k'
        · simp [h1]
        · simp [h1, ih]

theorem alookup_amodify_self {α β : Type} [DecidableEq α] (l : List (α × β)) (k : α)
    (f : β → β) : alookup (amodify l k f) k = (alookup l k).map f := by
  induction l with
  | nil => simp [amodify, alookup]
  | cons hd tl ih =>
      obtain ⟨k', v'⟩ := hd
      by_cases h : k' = k
      · subst h; simp [amodify, alookup]
      · simp [amodify, alookup, h, ih]

theorem alookup_amodify_ne {α β : Type} [DecidableEq α] (l : List (α × β)) (k k' : α)
    (f : β → β) (h : k ≠ k') : alookup (amodify l k f) k' = alookup l k' := by
  induction l with
  | nil => simp [amodify, alookup]
  | cons hd tl ih =>
      obtain ⟨k₀, v₀⟩ := hd
      by_cases h0 : k₀ = k
      · subst h0; simp [amodify, alookup, h]
      · simp only [amodify, if_neg h0, alookup]
        by_cases h1 : k₀ = k'
        · simp [h1]
        · simp [h1, ih]

theorem combined_score_in_unit (s : MemoryScore)
    (h1 : inUnit s.similarity) (h2 : inUnit s.importance) (h3 : inUnit s.recency)
    (h4 : inUnit s.access_frequency) : inUnit s.combined_score := by
  obtain ⟨a0, a1⟩ := h1
  obtain ⟨b0, b1⟩ := h2
  obtain ⟨c0, c1⟩ := h3
  obtain ⟨d0, d1⟩ := h4
  unfold MemoryScore.combined_score inUnit
  constructor <;> nlinarith

/-- C3: on valid inputs (vector distance in [0,1], stored importance or
success rate in [0,1], recency signal in [0,1], access count bounded by the
corpus maximum), every MemoryScore built by episodic recall and by procedural
find_applicable_skills has all four sub-signals in [0,1] and a combined score
in [0,1]; moreover the recency signal calculate_recency_score itself lies in
[0,1] for any nonnegative age and positive decay half-life. -/
theorem memoryScore_bounded
    (dist imp rec rate : ℚ) (count maxAccess usage : ℕ) (age decay : ℝ)
    (hd0 : 0 ≤ dist) (hd1 : dist ≤ 1) (hi0 : 0 ≤ imp) (hi1 : imp ≤ 1)
    (hr0 : 0 ≤ rec) (hr1 : rec ≤ 1) (hs0 : 0 ≤ rate) (hs1 : rate ≤ 1)
    (hcm : count ≤ maxAccess) (hage : 0 ≤ age) (hdecay : 0 < decay) :
    scoreInUnit (recallScore dist imp rec count maxAccess) ∧
    scoreInUnit (findApplicableScore dist rate rec usage) ∧
    (0 ≤ calculate_recency_score age decay ∧ calculate_recency_score age decay ≤ 1) := by
  have hsim : inUnit (1 - dist) := ⟨by linarith, by linarith⟩
  have hfreq : inUnit (if (0 : ℚ) < (maxAccess : ℚ) then (count : ℚ) / (maxAccess : ℚ) else 0) := by
    by_cases h : (0 : ℚ) < (maxAccess : ℚ)
    · rw [if_pos h]
      refine ⟨div_nonneg (Nat.cast_nonneg _) (Nat.cast_nonneg _), ?_⟩
      rw [div_le_one h]
      exact_mod_cast hcm
    · rw [if_neg h]; exact ⟨le_refl 0, by norm_num⟩
  have hfreq2 : inUnit (min ((usage : ℚ) / 100) 1) := by
    constructor
    · exact le_min (div_nonneg (Nat.cast_nonneg _) (by norm_num)) (by norm_num)
    · exact min_le_right _ _
  refine ⟨⟨hsim, ⟨hi0, hi1⟩, ⟨hr0, hr1⟩, hfreq, ?_⟩,
          ⟨hsim, ⟨hs0, hs1⟩, ⟨hr0, hr1⟩, hfreq2, ?_⟩, ?_, ?_⟩
  · exact combined_score_in_unit _ hsim ⟨hi0, hi1⟩ ⟨hr0, hr1⟩ hfreq
  · exact combined_score_in_unit _ hsim ⟨hs0, hs1⟩ ⟨hr0, hr1⟩ hfreq2
  · exact (Real.exp_pos _).le
  · unfold calculate_recency_score
    rw [Real.exp_le_one_iff]
    have : 0 ≤ age / decay := div_nonneg hage hdecay.le
    linarith

/-- Witness for memoryScore_bounded at concrete valid inputs. -/
theorem memoryScore_bounded_witness :
    ((0 : ℚ) ≤ 0 ∧ (0 : ℚ) ≤ 1 ∧ (1 : ℕ) ≤ 2 ∧ (0 : ℝ) ≤ 0 ∧ (0 : ℝ) < 30) ∧
    (scoreInUnit (recallScore 0 (1 / 2) 1 1 2) ∧
     scoreInUnit (findApplicableScore 0 1 1 5) ∧
     (0 ≤ calculate_recency_score 0 30 ∧ calculate_recency_score 0 30 ≤ 1)) :=
  ⟨⟨by norm_num, by norm_num, by norm_num, by norm_num, by norm_num⟩,
    memoryScore_bounded 0 (1 / 2) 1 1 1 2 5 0 30 (by norm_num) (by norm_num) (by norm_num)
      (by norm_num) (by norm_num) (by norm_num) (by norm_num) (by norm_num) (by norm_num)
      (by norm_num) (by norm_num)⟩

theorem record_usage_step_rate_one (c : List (String × Skill)) (sid : String) (nowStr : String)
    (h : (alookup c sid).map Skill.success_rate = some 1) :
    (alookup (record_usage c sid true nowStr).2 sid).map Skill.success_rate = some 1 := by
  cases hl : alookup c sid with
  | none => rw [hl] at h; simp at h
  | some sk =>
      rw [hl] at h
      simp only [Option.map_some'] at h
      have hrate : sk.success_rate = 1 := by exact Option.some.inj h
      simp only [record_usage, hl, alookup_ainsert_self, Option.map_some', Option.some.injEq]
      have hn : (0 : ℚ) < ((sk.usage_count + 1 : ℕ) : ℚ) := by positivity
      field_simp [hrate]

theorem iterate_trues_rate_one (sid : String) (nowStr : String) :
    ∀ (m : ℕ) (c : List (String × Skill)),
      (alookup c sid).map Skill.success_rate = some 1 →
      (alookup (iterate_usage c sid (List.replicate m true) nowStr) sid).map Skill.success_rate
        = some 1 := by
  intro m
  induction m with
  | zero => intro c h; simpa [iterate_usage] using h
  | succ k ih =>
      intro c h
      have : iterate_usage c sid (List.replicate (k + 1) true) nowStr
          = iterate_usage (record_usage c sid true nowStr).2 sid (List.replicate k true) nowStr := by
        simp [iterate_usage, List.replicate_succ]
      rw [this]
      exact ih _ (record_usage_step_rate_one c sid nowStr h)

theorem record_usage_step_nonneg (c : List (String × Skill)) (sid : String) (b : Bool)
    (nowStr : String)
    (h : ∀ sk', alookup c sid = some sk' → 0 ≤ sk'.success_rate) :
    ∀ sk', alookup (record_usage c sid b nowStr).2 sid = some sk' → 0 ≤ sk'.success_rate := by
  intro sk' h'
  cases hl : alookup c sid with
  | none => simp only [record_usage, hl] at h'; exact h sk' (hl ▸ h')
  | some sk =>
      have hsk : 0 ≤ sk.success_rate := h sk hl
      simp only [record_usage, hl, alookup_ainsert_self, Option.some.injEq] at h'
      subst h'
      have hn1 : (1 : ℚ) ≤ ((sk.usage_count + 1 : ℕ) : ℚ) := by exact_mod_cast Nat.succ_le_succ (Nat.zero_le _)
      have hw0 : (0 : ℚ) ≤ 1 / ((sk.usage_count + 1 : ℕ) : ℚ) := by positivity
      have hw1 : 1 / ((sk.usage_count + 1 : ℕ) : ℚ) ≤ 1 := by
        rw [div_le_one (by linarith)]; exact hn1
      have hs0 : (0 : ℚ) ≤ (if b then (1 : ℚ) else 0) := by cases b <;> norm_num
      simp only
      nlinarith

theorem iterate_usage_nonneg (sid : String) (nowStr : String) :
    ∀ (outcomes : List Bool) (c : List (String × Skill)),
      (∀ sk', alookup c sid = some sk' → 0 ≤ sk'.success_rate) →
      ∀ sk', alookup (iterate_usage c sid outcomes nowStr) sid = some sk' →
        0 ≤ sk'.success_rate := by
  intro outcomes
  induction outcomes with
  | nil => intro c h; simpa [iterate_usage] using h
  | cons b rest ih =>
      intro c h
      have : iterate_usage c sid (b :: rest) nowStr
          = iterate_usage (record_usage c sid b nowStr).2 sid rest nowStr := by
        simp [iterate_usage]
      rw [this]
      exact ih _ (record_usage_step_nonneg c sid b nowStr h)

/-- C7: record_usage on an existing skill increments usage_count by exactly 1
and sets success_rate to old_rate * (1 - 1/n) + success_value/n with n the new
usage count and success_value 1 for success, 0 for failure; recording only
successes from a fresh skill (usage_count = 0) leaves success_rate exactly 1
(hence converging to 1.0); and any interleaving of successes and failures
keeps success_rate nonnegative. -/
theorem record_usage_correct (cache : List (String × Skill)) (skill_id : String)
    (sk : Skill) (success : Bool) (nowStr : String)
    (hfound : alookup cache skill_id = some sk) :
    ((record_usage cache skill_id success nowStr).1 = true ∧
      alookup (record_usage cache skill_id success nowStr).2 skill_id = some
        { sk with
          usage_count := sk.usage_count + 1
          success_rate := sk.success_rate * (1 - 1 / ((sk.usage_count : ℚ) + 1)) +
            (if success then (1 : ℚ) else 0) * (1 / ((sk.usage_count : ℚ) + 1))
          updated_at := nowStr }) ∧
    (∀ n : ℕ, 1 ≤ n → sk.usage_count = 0 →
      (alookup (iterate_usage cache skill_id (List.replicate n true) nowStr) skill_id).map
          Skill.success_rate = some 1) ∧
    (∀ outcomes : List Bool, 0 ≤ sk.success_rate →
      ∀ sk', alookup (iterate_usage cache skill_id outcomes nowStr) skill_id = some sk' →
        0 ≤ sk'.success_rate) := by
  refine ⟨⟨?_, ?_⟩, ?_, ?_⟩
  · simp [record_usage, hfound]
  · simp only [record_usage, hfound, alookup_ainsert_self, Option.some.injEq]
    congr 1
    push_cast
    ring
  · intro n h1 h0
    obtain ⟨m, rfl⟩ := Nat.exists_eq_add_of_le h1
    have hone : (alookup (record_usage cache skill_id true nowStr).2 skill_id).map
        Skill.success_rate = some 1 := by
      simp only [record_usage, hfound, alookup_ainsert_self, Option.map_some',
        Option.some.injEq]
      rw [h0]
      norm_num
    have hrw : iterate_usage cache skill_id (List.replicate (1 + m) true) nowStr
        = iterate_usage (record_usage cache skill_id true nowStr).2 skill_id
            (List.replicate m true) nowStr := by
      rw [Nat.add_comm 1 m]
      simp [iterate_usage, List.replicate_succ]
    rw [hrw]
    exact iterate_trues_rate_one skill_id nowStr m _ hone
  · intro outcomes hge sk' hl
    refine iterate_usage_nonneg skill_id nowStr outcomes cache ?_ sk' hl
    intro sk'' h''
    rw [hfound] at h''
    exact (Option.some.inj h'') ▸ hge

theorem find?_eq_some_of_unique {α : Type} (l : List α) (p : α → Bool) (a : α)
    (huniq : ∀ x ∈ l, p x = true → x = a) (hmem : a ∈ l) (hpa : p a = true) :
    l.find? p = some a := by
  induction l with
  | nil => cases hmem
  | cons hd tl ih =>
      by_cases hp : p hd = true
      · have : hd = a := huniq hd (List.mem_cons_self hd tl) hp
        subst this
        rw [List.find?_cons_of_pos _ hp]
      · have hhd : hd ≠ a := fun h => hp (h ▸ hpa)
        have hmem' : a ∈ tl := by
          cases hmem with
          | head => exact absurd rfl hhd
          | tail _ h => exact h
        rw [List.find?_cons_of_neg _ (by simpa using hp)]
        exact ih (fun x hx hpx => huniq x (List.mem_cons_of_mem hd hx) hpx) hmem'

theorem indexAdd_lookup_self (idx : List (String × List String)) (key tid : String) :
    ∃ ids, alookup (indexAdd idx key tid) key = some ids ∧ tid ∈ ids ∧
      ∀ x ∈ ids, x ∈ (alookup idx key).getD [] ∨ x = tid := by
  unfold indexAdd
  cases h : alookup idx key with
  | none =>
      exact ⟨[tid], alookup_ainsert_self idx key [tid], List.mem_singleton_self tid,
        fun x hx => Or.inr (List.mem_singleton.mp hx)⟩
  | some ids0 =>
      by_cases hmem : tid ∈ ids0
      · refine ⟨ids0, ?_, hmem, fun x hx => Or.inl (by simp [h, hx])⟩
        simp [hmem, alookup_ainsert_self]
      · refine ⟨ids0 ++ [tid], ?_, List.mem_append_right _ (List.mem_singleton_self tid), ?_⟩
        · simp [hmem, alookup_ainsert_self]
        · intro x hx
          rcases List.mem_append.mp hx with h1 | h2
          · exact Or.inl (by simp [h, h1])
          · exact Or.inr (List.mem_singleton.mp h2)

theorem amodify_ainsert {α β : Type} [DecidableEq α] (l : List (α × β)) (k : α) (v : β)
    (f : β → β) : amodify (ainsert l k v) k f = ainsert l k (f v) := by
  induction l with
  | nil => simp [ainsert, amodify]
  | cons hd tl ih =>
      obtain ⟨k0, v0⟩ := hd
      by_cases h : k0 = k
      · subst h; simp [ainsert, amodify]
      · simp [ainsert, amodify, h, ih]

theorem filter_ainsert_of_none {α β : Type} [DecidableEq α] (l : List (α × β)) (k : α) (v : β)
    (pm : β → Bool) (hnone : ∀ e ∈ l, pm e.2 = false) :
    (ainsert l k v).filter (fun e => pm e.2) = if pm v then [(k, v)] else [] := by
  induction l with
  | nil => cases hv : pm v <;> simp [ainsert, List.filter, hv]
  | cons hd tl ih =>
      obtain ⟨k0, v0⟩ := hd
      have h0 : pm v0 = false := hnone (k0, v0) (List.mem_cons_self _ _)
      have htl : ∀ e ∈ tl, pm e.2 = false := fun e he => hnone e (List.mem_cons_of_mem _ he)
      have htlf : tl.filter (fun e => pm e.2) = [] :=
        List.filter_eq_nil_iff.mpr (fun e he => by simp [htl e he])
      by_cases h : k0 = k
      · subst h
        cases hv : pm v <;> simp [ainsert, List.filter, h0, hv, htlf]
      · cases hv : pm v <;> simp [ainsert, h, List.filter, h0, ih htl, hv]

theorem bm25_idf_nonneg (n : ℕ) (df : String → ℕ) (term : String) (hdf : df term ≤ n) :
    0 ≤ bm25_idf n df term := by
  unfold bm25_idf
  by_cases h : df term = 0
  · rw [if_pos h]
  · rw [if_neg h]
    apply Real.log_nonneg
    have hcast : (df term : ℝ) ≤ (n : ℝ) := by exact_mod_cast hdf
    have hnum : (0 : ℝ) ≤ (n : ℝ) - (df term : ℝ) + 1 / 2 := by linarith
    have hden : (0 : ℝ) < (df term : ℝ) + 1 / 2 := by positivity
    have hdiv : 0 ≤ ((n : ℝ) - (df term : ℝ) + 1 / 2) / ((df term : ℝ) + 1 / 2) :=
      div_nonneg hnum hden.le
    linarith

theorem bm25_term_score_mono (idfv : ℝ) (tf1 tf2 : ℕ) (k1 b dl avgdl : ℝ)
    (hidf : 0 ≤ idfv) (hk1 : 0 ≤ k1) (hb0 : 0 ≤ b) (hb1 : b ≤ 1)
    (hdl : 0 ≤ dl) (havg : 0 < avgdl) (h12 : tf1 ≤ tf2) :
    bm25_term_score idfv tf1 k1 b dl avgdl ≤ bm25_term_score idfv tf2 k1 b dl avgdl := by
  have hK : 0 ≤ k1 * (1 - b + b * dl / avgdl) := by
    have h1 : 0 ≤ 1 - b := by linarith
    have h2 : 0 ≤ b * dl / avgdl := by positivity
    nlinarith
  unfold bm25_term_score
  by_cases h1 : tf1 = 0
  · rw [if_pos h1]
    by_cases h2 : tf2 = 0
    · rw [if_pos h2]
    · rw [if_neg h2]
      have hx : (1 : ℝ) ≤ (tf2 : ℝ) := by exact_mod_cast Nat.one_le_iff_ne_zero.mpr h2
      have hden : 0 < (tf2 : ℝ) + k1 * (1 - b + b * dl / avgdl) := by linarith
      have hnum : 0 ≤ idfv * ((tf2 : ℝ) * (k1 + 1)) :=
        mul_nonneg hidf (mul_nonneg (by linarith) (by linarith))
      rw [mul_div_assoc]
      exact mul_nonneg hidf (div_nonneg (mul_nonneg (by linarith) (by linarith)) hden.le)
  · have h2 : ¬ tf2 = 0 := by omega
    rw [if_neg h1, if_neg h2]
    have hx1 : (1 : ℝ) ≤ (tf1 : ℝ) := by exact_mod_cast Nat.one_le_iff_ne_zero.mpr h1
    have hx12 : (tf1 : ℝ) ≤ (tf2 : ℝ) := by exact_mod_cast h12
    have hd1 : 0 < (tf1 : ℝ) + k1 * (1 - b + b * dl / avgdl) := by linarith
    have hd2 : 0 < (tf2 : ℝ) + k1 * (1 - b + b * dl / avgdl) := by linarith
    rw [div_le_div_iff₀ hd1 hd2]
    nlinarith [mul_nonneg (mul_nonneg (mul_nonneg hidf (by linarith : (0:ℝ) ≤ k1 + 1)) hK)
      (by linarith : (0:ℝ) ≤ (tf2 : ℝ) - (tf1 : ℝ))]

/-- C6: for any indexed corpus (document frequencies bounded by the corpus
size) and any query, adding one occurrence of a query term to a document's
term-frequency table — holding document length, average document length and
document frequencies unchanged — never decreases the document's BM25 score,
for any k1 ≥ 0 and b in [0,1] (hence for the defaults k1 = 1.5, b = 0.75). -/
theorem bm25_score_monotone (queryTokens : List String) (tf : String → ℕ) (t0 : String)
    (n : ℕ) (df : String → ℕ) (k1 b dl avgdl : ℝ)
    (hk1 : 0 ≤ k1) (hb0 : 0 ≤ b) (hb1 : b ≤ 1) (hdl : 0 ≤ dl) (havg : 0 < avgdl)
    (hdf : ∀ t, df t ≤ n) :
    bm25_score queryTokens tf n df k1 b dl avgdl ≤
      bm25_score queryTokens (bumpTf tf t0) n df k1 b dl avgdl := by
  unfold bm25_score
  apply List.sum_le_sum
  intro t ht
  by_cases h : t = t0
  · subst h
    unfold bumpTf
    simp only [if_pos rfl]
    exact bm25_term_score_mono _ _ _ _ _ _ _ (bm25_idf_nonneg n df t (hdf t))
      hk1 hb0 hb1 hdl havg (Nat.le_succ _)
  · unfold bumpTf
    simp only [if_neg h]
    exact le_refl _

/-- Witness for bm25_score_monotone: a one-term query against a one-document
corpus at the default parameters. -/
theorem bm25_score_monotone_witness :
    ((0 : ℝ) ≤ 3 / 2 ∧ (0 : ℝ) ≤ 3 / 4 ∧ (3 / 4 : ℝ) ≤ 1 ∧ (0 : ℝ) ≤ 1 ∧ (0 : ℝ) < 1 ∧
      (∀ t : String, (fun _ => 1 : String → ℕ) t ≤ 1)) ∧
    bm25_score ["x"] (fun _ => 0) 1 (fun _ => 1) (3 / 2) (3 / 4) 1 1 ≤
      bm25_score ["x"] (bumpTf (fun _ => 0) "x") 1 (fun _ => 1) (3 / 2) (3 / 4) 1 1 :=
  ⟨⟨by norm_num, by norm_num, by norm_num, by norm_num, by norm_num, fun t => le_refl 1⟩,
    bm25_score_monotone ["x"] (fun _ => 0) "x" 1 (fun _ => 1) (3 / 2) (3 / 4) 1 1
      (by norm_num) (by norm_num) (by norm_num) (by norm_num) (by norm_num)
      (fun t => le_refl 1)⟩

/-- C4, counterexample: the fusion layer does not min-max normalize.  With
BM25 scores {a: 1, b: 2} and no vector signal, search returns a's bm25_score
as 1/2 (division by the maximum), while min-max normalization of the same
score set — the source's own unused _normalize_scores — maps the minimum to
0; the claim's per-ranker min-max normalization is false of the code. -/
theorem hybrid_search_not_minmax :
    ((hybrid_search [("a", "ca"), ("b", "cb")] (fun idx => if idx = 0 then 1 else 2) []
        (2 / 5) (3 / 5) 10 0).map (fun r => (r.id, r.bm25_score))
      = [("b", 1), ("a", 1 / 2)]) ∧
    normalize_scores [2, 1] = [1, 0] ∧ ((1 : ℚ) / 2 ≠ 0) := by
  refine ⟨?_, ?_, by norm_num⟩
  · norm_num +decide [hybrid_search, hybrid_fused, hybrid_bm25_scores, hybrid_vector_scores,
      hybrid_bm25_max, hybrid_vector_max, bm25_search, sortDescBy, listMaxD, normMax,
      scoreVals, alookup, List.insertionSort, List.orderedInsert, List.range,
      List.range.loop, List.dedup, List.filterMap]
  · norm_num [normalize_scores]

/-- C4 (amended): both rankers over-fetch at most 2·top_k candidates; each
document's score is normalized by dividing by the maximum of its ranker's
score set (not min-max normalized; a non-positive maximum yields 0), with 0
substituted for a missing signal rather than the document being excluded;
every returned row's combined score equals bm25_weight * norm_bm25 +
vector_weight * norm_vector and is at least min_score; and the returned list
is sorted by combined score descending and truncated to top_k. -/
theorem hybrid_search_fusion (docs : List (String × String)) (scoreOf : ℕ → ℚ)
    (vector : List (String × ℚ)) (wb wv : ℚ) (top_k : ℕ) (min_score : ℚ)
    (hv : vector.length ≤ top_k * 2) :
    ((hybrid_bm25_scores docs scoreOf top_k).length ≤ top_k * 2 ∧
      (hybrid_vector_scores vector).length ≤ top_k * 2) ∧
    (hybrid_search docs scoreOf vector wb wv top_k min_score).length ≤ top_k ∧
    List.Sorted (fun a b => b.combined_score ≤ a.combined_score)
      (hybrid_search docs scoreOf vector wb wv top_k min_score) ∧
    (∀ r ∈ hybrid_search docs scoreOf vector wb wv top_k min_score,
      min_score ≤ r.combined_score ∧
      r.combined_score = wb * r.bm25_score + wv * r.vector_score ∧
      r.bm25_score = normMax ((alookup (hybrid_bm25_scores docs scoreOf top_k) r.id).getD 0)
        (hybrid_bm25_max docs scoreOf top_k) ∧
      r.vector_score = normMax ((alookup (hybrid_vector_scores vector) r.id).getD 0)
        (hybrid_vector_max vector)) := by
  haveI htot : IsTotal HybridResult (fun a b => b.combined_score ≤ a.combined_score) :=
    ⟨fun a b => le_total _ _⟩
  haveI htrans : IsTrans HybridResult (fun a b => b.combined_score ≤ a.combined_score) :=
    ⟨fun a b c h1 h2 => le_trans h2 h1⟩
  refine ⟨⟨?_, ?_⟩, ?_, ?_, ?_⟩
  · unfold hybrid_bm25_scores bm25_search
    rw [List.length_map]
    exact List.length_take_le _ _
  · unfold hybrid_vector_scores
    rw [List.length_map]
    exact hv
  · unfold hybrid_search
    exact List.length_take_le _ _
  · unfold hybrid_search sortDescBy
    exact List.Pairwise.sublist (List.take_sublist _ _) (List.sorted_insertionSort _ _)
  · intro r hr
    unfold hybrid_search at hr
    have hr1 := List.take_subset _ _ hr
    unfold sortDescBy at hr1
    have hr2 : r ∈ hybrid_fused docs scoreOf vector wb wv top_k min_score :=
      (List.mem_insertionSort _).mp hr1
    unfold hybrid_fused at hr2
    obtain ⟨did, hdid, heq⟩ := List.mem_filterMap.mp hr2
    dsimp only at heq
    split at heq
    case isTrue hcond =>
      have hrec := Option.some.inj heq
      subst hrec
      exact ⟨hcond, rfl, rfl, rfl⟩
    case isFalse hcond => exact absurd heq (by simp)

/-- Witness for hybrid_search_fusion at a concrete two-document corpus. -/
theorem hybrid_search_fusion_witness :
    (List.length ([] : List (String × ℚ)) ≤ 10 * 2) ∧
    (hybrid_search [("a", "ca"), ("b", "cb")] (fun idx => if idx = 0 then 1 else 2) []
        (2 / 5) (3 / 5) 10 0).length ≤ 10 :=
  ⟨by norm_num,
    (hybrid_search_fusion [("a", "ca"), ("b", "cb")] (fun idx => if idx = 0 then 1 else 2) []
      (2 / 5) (3 / 5) 10 0 (by norm_num)).2.1⟩

theorem recallStep_snd (recencyOf : String → ℚ) (m : ℚ) (nowStr : String)
    (scored : List (Episode × MemoryScore)) (c : List (String × Episode)) (cand : String × ℚ) :
    (recallStep recencyOf m nowStr (scored, c) cand).2 = accessStep m nowStr c cand := by
  unfold recallStep accessStep
  cases h : alookup c cand.1 with
  | none => rfl
  | some ep => by_cases hi : ep.importance < m <;> simp [hi]

theorem recall_snd_eq (recencyOf : String → ℚ) (m : ℚ) (nowStr : String) :
    ∀ (cands : List (String × ℚ)) (scored : List (Episode × MemoryScore))
      (c : List (String × Episode)),
      (List.foldl (recallStep recencyOf m nowStr) (scored, c) cands).2
        = List.foldl (accessStep m nowStr) c cands := by
  intro cands
  induction cands with
  | nil => intro scored c; rfl
  | cons hd tl ih =>
      intro scored c
      simp only [List.foldl_cons]
      calc (List.foldl (recallStep recencyOf m nowStr)
              (recallStep recencyOf m nowStr (scored, c) hd) tl).2
          = (List.foldl (recallStep recencyOf m nowStr)
              ((recallStep recencyOf m nowStr (scored, c) hd).1,
               (recallStep recencyOf m nowStr (scored, c) hd).2) tl).2 := by rw [Prod.mk.eta]
        _ = List.foldl (accessStep m nowStr)
              (recallStep recencyOf m nowStr (scored, c) hd).2 tl := ih _ _
        _ = List.foldl (accessStep m nowStr) (accessStep m nowStr c hd) tl := by
              rw [recallStep_snd]

theorem accessStep_lookup_ne (m : ℚ) (nowStr : String) (c : List (String × Episode))
    (cand : String × ℚ) (eid : String) (h : cand.1 ≠ eid) :
    alookup (accessStep m nowStr c cand) eid = alookup c eid := by
  unfold accessStep
  cases hl : alookup c cand.1 with
  | none => rfl
  | some ep =>
      by_cases hi : ep.importance < m
      · simp [hi]
      · simp only [hi, if_neg, Bool.false_eq_true, not_false_eq_true]
        unfold bumpAccess
        exact alookup_amodify_ne _ _ _ _ h

theorem accessStep_lookup_none (m : ℚ) (nowStr : String) (c : List (String × Episode))
    (cand : String × ℚ) (eid : String) (h : alookup c eid = none) :
    alookup (accessStep m nowStr c cand) eid = none := by
  by_cases he : cand.1 = eid
  · subst he
    unfold accessStep
    rw [h]
    exact h
  · rw [accessStep_lookup_ne m nowStr c cand eid he]
    exact h

theorem passesFilter_accessStep (m : ℚ) (nowStr : String) (c : List (String × Episode))
    (cand : String × ℚ) (eid : String) :
    passesFilter (accessStep m nowStr c cand) m eid = passesFilter c m eid := by
  unfold accessStep
  cases hl : alookup c cand.1 with
  | none => rfl
  | some ep =>
      by_cases hi : ep.importance < m
      · simp [hi]
      · simp only [hi, if_neg, Bool.false_eq_true, not_false_eq_true]
        unfold passesFilter bumpAccess
        by_cases he : cand.1 = eid
        · subst he
          rw [alookup_amodify_self, hl]
          rfl
        · rw [alookup_amodify_ne _ _ _ _ he]

theorem any_fst_eq_false {β : Type} (tl : List (String × β)) (eid : String) (P : String → Bool)
    (h : eid ∉ tl.map Prod.fst) :
    tl.any (fun cd => cd.1 == eid && P cd.1) = false := by
  induction tl with
  | nil => rfl
  | cons hd tl ih =>
      simp only [List.map_cons, List.mem_cons, not_or] at h
      have h1 : (hd.1 == eid) = false := by
        simp only [beq_eq_false_iff_ne, ne_eq]
        exact fun he => h.1 he.symm
      simp only [List.any_cons, h1, Bool.false_and, Bool.false_or]
      exact ih h.2

theorem foldl_accessStep_not_mem (m : ℚ) (nowStr : String) :
    ∀ (cands : List (String × ℚ)) (c : List (String × Episode)) (eid : String),
      eid ∉ cands.map Prod.fst →
      alookup (List.foldl (accessStep m nowStr) c cands) eid = alookup c eid := by
  intro cands
  induction cands with
  | nil => intro c eid _; rfl
  | cons hd tl ih =>
      intro c eid h
      simp only [List.map_cons, List.mem_cons, not_or] at h
      simp only [List.foldl_cons]
      rw [ih _ _ h.2, accessStep_lookup_ne m nowStr c hd eid (fun he => h.1 he.symm)]

theorem foldl_accessStep_lookup (m : ℚ) (nowStr : String) :
    ∀ (cands : List (String × ℚ)) (c cache : List (String × Episode)) (eid : String)
      (ep : Episode),
      alookup c eid = some ep →
      (∀ x, passesFilter c m x = passesFilter cache m x) →
      (cands.map Prod.fst).Nodup →
      alookup (List.foldl (accessStep m nowStr) c cands) eid
        = some (if cands.any (fun cd => cd.1 == eid && passesFilter cache m cd.1) then
            { ep with access_count := ep.access_count + 1, last_accessed := some nowStr }
          else ep) := by
  intro cands
  induction cands with
  | nil =>
      intro c cache eid ep h _ _
      simpa using h
  | cons hd tl ih =>
      intro c cache eid ep h hfilter hnodup
      simp only [List.map_cons, List.nodup_cons] at hnodup
      simp only [List.foldl_cons, List.any_cons]
      by_cases he : hd.1 = eid
      · -- the head candidate is the tracked episode
        have hpc : passesFilter c m hd.1 = !(ep.importance < m) := by
          unfold passesFilter
          rw [he, h]
        by_cases hi : ep.importance < m
        · -- filtered out: no bump from the head, and the head test is false
          have hc' : accessStep m nowStr c hd = c := by
            unfold accessStep
            rw [he, h]
            simp [hi]
          rw [hc', foldl_accessStep_not_mem m nowStr tl c eid (he ▸ hnodup.1), h]
          have hhd : (hd.1 == eid && passesFilter cache m hd.1) = false := by
            rw [← hfilter hd.1, hpc]
            simp [hi]
          simp [hhd, any_fst_eq_false tl eid _ (he ▸ hnodup.1)]
        · -- filter passes: the head bump is the single update
          have hc' : accessStep m nowStr c hd = bumpAccess c hd.1 nowStr := by
            unfold accessStep
            rw [he, h]
            simp [hi]
          rw [hc']
          have hbump : alookup (bumpAccess c hd.1 nowStr) eid
              = some { ep with
                  access_count := ep.access_count + 1
                  last_accessed := some nowStr } := by
            unfold bumpAccess
            rw [he, alookup_amodify_self, h]
            rfl
          rw [foldl_accessStep_not_mem m nowStr tl _ eid (he ▸ hnodup.1), hbump]
          have hhd : (hd.1 == eid && passesFilter cache m hd.1) = true := by
            rw [← hfilter hd.1, hpc]
            simp [he, hi]
          simp [hhd]
      · -- head concerns a different episode
        have hc' : alookup (accessStep m nowStr c hd) eid = some ep := by
          rw [accessStep_lookup_ne m nowStr c hd eid he]
          exact h
        have hfilter' : ∀ x, passesFilter (accessStep m nowStr c hd) m x
            = passesFilter cache m x :=
          fun x => (passesFilter_accessStep m nowStr c hd x).trans (hfilter x)
        rw [ih _ cache eid ep hc' hfilter' hnodup.2]
        have hhd : (hd.1 == eid) = false := by
          simp only [beq_eq_false_iff_ne, ne_eq]
          exact he
        have hcond : (hd.1 == eid && passesFilter cache m hd.1
            || tl.any fun cd => cd.1 == eid && passesFilter cache m cd.1)
            = (tl.any fun cd => cd.1 == eid && passesFilter cache m cd.1) := by
          rw [hhd]
          simp
        simp only [hcond]

theorem foldl_accessStep_none (m : ℚ) (nowStr : String) :
    ∀ (cands : List (String × ℚ)) (c : List (String × Episode)) (eid : String),
      alookup c eid = none →
      alookup (List.foldl (accessStep m nowStr) c cands) eid = none := by
  intro cands
  induction cands with
  | nil => intro c eid h; exact h
  | cons hd tl ih =>
      intro c eid h
      simp only [List.foldl_cons]
      exact ih _ eid (accessStep_lookup_none m nowStr c hd eid h)

/-- C8 (amended): recall increments the access counter and stamps the
last-accessed time of every candidate that passes the cache-membership and
min-importance filters — not only of the episodes actually returned (the
returned list is the top n_results rows after sorting and truncation, which
can be strictly fewer) — and changes no other field and no other episode. -/
theorem recall_access_stats (cache : List (String × Episode))
    (candidates : List (String × ℚ)) (recencyOf : String → ℚ) (nowStr : String)
    (n_results : ℕ) (min_importance : ℚ)
    (hnodup : (candidates.map Prod.fst).Nodup) :
    (recallEpisodes cache candidates recencyOf nowStr n_results min_importance).1.length
        ≤ n_results ∧
    (∀ eid, alookup cache eid = none →
      alookup (recallEpisodes cache candidates recencyOf nowStr n_results min_importance).2 eid
        = none) ∧
    (∀ eid ep, alookup cache eid = some ep →
      alookup (recallEpisodes cache candidates recencyOf nowStr n_results min_importance).2 eid
        = some (if candidates.any
              (fun cd => cd.1 == eid && passesFilter cache min_importance cd.1) then
            { ep with access_count := ep.access_count + 1, last_accessed := some nowStr }
          else ep)) := by
  have hsnd : (recallEpisodes cache candidates recencyOf nowStr n_results min_importance).2
      = List.foldl (accessStep min_importance nowStr) cache candidates := by
    unfold recallEpisodes
    exact recall_snd_eq recencyOf min_importance nowStr candidates [] cache
  refine ⟨?_, ?_, ?_⟩
  · unfold recallEpisodes
    exact List.length_take_le _ _
  · intro eid h
    rw [hsnd]
    exact foldl_accessStep_none min_importance nowStr candidates cache eid h
  · intro eid ep h
    rw [hsnd]
    exact foldl_accessStep_lookup min_importance nowStr candidates cache cache eid ep h
      (fun x => rfl) hnodup

/-- Witness for recall_access_stats on a concrete two-episode cache. -/
theorem recall_access_stats_witness :
    (([("e1", (0 : ℚ)), ("e2", 1 / 2)].map Prod.fst).Nodup) ∧
    (recallEpisodes [("e1", sampleEpisode), ("e2", sampleEpisode2)]
        [("e1", 0), ("e2", 1 / 2)] (fun _ => 1) "T" 1 0).1.length ≤ 1 :=
  ⟨by decide,
    (recall_access_stats [("e1", sampleEpisode), ("e2", sampleEpisode2)]
      [("e1", 0), ("e2", 1 / 2)] (fun _ => 1) "T" 1 0 (by decide)).1⟩

/-- C8, counterexample: with two candidates passing the filters and
n_results = 1, recall returns only e1 yet also bumps e2's access counter —
the side effect applies to every filtered candidate, not only to the
episodes actually returned. -/
theorem recall_bumps_unreturned :
    ((recallEpisodes [("e1", sampleEpisode), ("e2", sampleEpisode2)]
        [("e1", 0), ("e2", 1 / 2)] (fun _ => 1) "T" 1 0).1.map (fun x => x.1.id)
      = ["e1"]) ∧
    ((alookup (recallEpisodes [("e1", sampleEpisode), ("e2", sampleEpisode2)]
        [("e1", 0), ("e2", 1 / 2)] (fun _ => 1) "T" 1 0).2 "e2").map Episode.access_count
      = some 1) ∧
    sampleEpisode2.access_count = 0 := by
  refine ⟨?_, ?_, rfl⟩ <;>
    norm_num +decide [recallEpisodes, recallStep, recallScore, maxAccessOf, bumpAccess,
      amodify, alookup, sortDescBy, List.insertionSort, List.orderedInsert,
      MemoryScore.combined_score, sampleEpisode, sampleEpisode2]

theorem mem_of_alookup_eq_some {α β : Type} [DecidableEq α] (l : List (α × β)) (k : α) (v : β)
    (h : alookup l k = some v) : (k, v) ∈ l := by
  induction l with
  | nil => simp [alookup] at h
  | cons hd tl ih =>
      obtain ⟨k0, v0⟩ := hd
      by_cases h0 : k0 = k
      · subst h0
        simp only [alookup, if_true, eq_self_iff_true] at h
        rw [← Option.some.inj h]
        exact List.mem_cons_self _ _
      · simp only [alookup, if_neg h0] at h
        exact List.mem_cons_of_mem _ (ih h)

theorem alookup_eq_some_of_mem_nodup {α β : Type} [DecidableEq α] (l : List (α × β))
    (hnd : (l.map Prod.fst).Nodup) (e : α × β) (he : e ∈ l) : alookup l e.1 = some e.2 := by
  induction l with
  | nil => cases he
  | cons hd tl ih =>
      simp only [List.map_cons, List.nodup_cons] at hnd
      cases he with
      | head =>
          simp [alookup]
      | tail _ htl =>
          have hne : hd.1 ≠ e.1 := by
            intro hq
            exact hnd.1 (hq ▸ List.mem_map_of_mem Prod.fst htl)
          obtain ⟨k0, v0⟩ := hd
          simp only [alookup, if_neg hne]
          exact ih hnd.2 htl

theorem amodify_map_fst {α β : Type} [DecidableEq α] (l : List (α × β)) (k : α) (f : β → β) :
    (amodify l k f).map Prod.fst = l.map Prod.fst := by
  induction l with
  | nil => rfl
  | cons hd tl ih =>
      obtain ⟨k0, v0⟩ := hd
      by_cases h0 : k0 = k
      · subst h0; simp [amodify]
      · simp [amodify, h0, ih]

theorem ainsert_map_fst_of_not_mem {α β : Type} [DecidableEq α] (l : List (α × β)) (k : α)
    (v : β) (h : k ∉ l.map Prod.fst) :
    (ainsert l k v).map Prod.fst = l.map Prod.fst ++ [k] := by
  induction l with
  | nil => rfl
  | cons hd tl ih =>
      obtain ⟨k0, v0⟩ := hd
      simp only [List.map_cons, List.mem_cons, not_or] at h
      have h0 : k0 ≠ k := fun hq => h.1 hq.symm
      simp [ainsert, h0, ih h.2]

theorem index_triple_lookup_self (σ : TGState) (t : TemporalTriple) :
    alookup (index_triple σ t).triples t.id = some t := by
  unfold index_triple
  exact alookup_ainsert_self _ _ _

theorem index_triple_lookup_ne (σ : TGState) (t : TemporalTriple) (x : ℕ) (h : t.id ≠ x) :
    alookup (index_triple σ t).triples x = alookup σ.triples x := by
  unfold index_triple
  exact alookup_ainsert_ne _ _ _ _ h

theorem foldl_index_lookup_not_mem :
    ∀ (log : List TemporalTriple) (σ0 : TGState) (x : ℕ),
      x ∉ log.map TemporalTriple.id →
      alookup (List.foldl index_triple σ0 log).triples x = alookup σ0.triples x := by
  intro log
  induction log with
  | nil => intro σ0 x _; rfl
  | cons hd tl ih =>
      intro σ0 x h
      simp only [List.map_cons, List.mem_cons, not_or] at h
      simp only [List.foldl_cons]
      rw [ih _ _ h.2, index_triple_lookup_ne σ0 hd x (fun hq => h.1 hq.symm)]

theorem foldl_index_lookup :
    ∀ (log : List TemporalTriple) (σ0 : TGState) (x : ℕ) (R : TemporalTriple),
      (log.map TemporalTriple.id).Nodup → R ∈ log → R.id = x →
      alookup (List.foldl index_triple σ0 log).triples x = some R := by
  intro log
  induction log with
  | nil => intro σ0 x R hnd hmem hid; cases hmem
  | cons hd tl ih =>
      intro σ0 x R hnd hmem hid
      simp only [List.map_cons, List.nodup_cons] at hnd
      simp only [List.foldl_cons]
      cases hmem with
      | head =>
          have hx : x ∉ tl.map TemporalTriple.id := hid ▸ hnd.1
          rw [foldl_index_lookup_not_mem tl _ x hx, ← hid]
          exact index_triple_lookup_self σ0 hd
      | tail _ htl =>
          exact ih _ x R hnd.2 htl hid

theorem tg_update_eq (σ : TGState) (tid : ℕ) (new_object : Option String)
    (new_confidence : Option ℚ) (vt : Option ℚ) (now : ℚ) (old : TemporalTriple)
    (hfound : alookup σ.triples tid = some old) :
    tg_update σ tid new_object new_confidence vt now
      = (some σ.nextId,
         { triples := ainsert
             (amodify σ.triples tid (fun t => { t with valid_to := some now }))
             σ.nextId (updTriple σ tid old new_object new_confidence vt now)
           subject_index := indexAppend σ.subject_index old.subject σ.nextId
           predicate_index := indexAppend σ.predicate_index old.predicate σ.nextId
           object_index := indexAppend σ.object_index (new_object.getD old.object) σ.nextId
           log := σ.log ++ [updTriple σ tid old new_object new_confidence vt now]
           nextId := σ.nextId + 1 }) := by
  unfold tg_update
  simp only [hfound]
  rfl

/-- C10: closing a temporal triple version is an in-memory effect only.
update appends only the new version's record to the append-only log (the
prior version's record, written at creation with valid_to = null, is never
re-written) while closing the prior version in memory, and invalidate writes
nothing to the log at all; consequently a TemporalGraph reconstructed from
the log via _load contains the prior (superseded or invalidated) version
with valid_to = null — the save/load round-trip does not preserve the
closure. -/
theorem temporal_log_roundtrip (σ : TGState) (tid : ℕ) (old R : TemporalTriple)
    (new_object : Option String) (new_confidence : Option ℚ) (vt : Option ℚ) (now now2 : ℚ)
    (hfound : alookup σ.triples tid = some old)
    (hlog : R ∈ σ.log) (hRid : R.id = tid) (hRopen : R.valid_to = none)
    (hlogids : (σ.log.map TemporalTriple.id).Nodup)
    (hlogbound : ∀ r ∈ σ.log, r.id < σ.nextId) :
    ((tg_update σ tid new_object new_confidence vt now).2.log
        = σ.log ++ [updTriple σ tid old new_object new_confidence vt now]) ∧
    ((tg_invalidate σ tid now2).2.log = σ.log) ∧
    (alookup (tg_update σ tid new_object new_confidence vt now).2.triples tid
        = some { old with valid_to := some now }) ∧
    (alookup (tg_load (tg_update σ tid new_object new_confidence vt now).2.log).triples tid
        = some R) ∧
    (alookup (tg_load (tg_invalidate σ tid now2).2.log).triples tid = some R) ∧
    R.valid_to = none := by
  have htid_lt : tid < σ.nextId := hRid ▸ hlogbound R hlog
  have hres := tg_update_eq σ tid new_object new_confidence vt now old hfound
  have hinv_log : (tg_invalidate σ tid now2).2.log = σ.log := by
    unfold tg_invalidate
    by_cases h : (alookup σ.triples tid).isSome <;> simp [h]
  refine ⟨by rw [hres], hinv_log, ?_, ?_, ?_, hRopen⟩
  · rw [hres]
    have hne : σ.nextId ≠ tid := fun hq => absurd (hq ▸ htid_lt) (lt_irrefl _)
    rw [alookup_ainsert_ne _ _ _ _ hne, alookup_amodify_self, hfound]
    rfl
  · rw [hres]
    unfold tg_load
    apply foldl_index_lookup
    · rw [List.map_append]
      rw [List.nodup_append]
      refine ⟨hlogids, List.nodup_singleton _, ?_⟩
      intro x hx
      simp only [List.map_cons, List.map_nil, List.mem_singleton]
      obtain ⟨r, hr, hrx⟩ := List.mem_map.mp hx
      intro hq
      have := hlogbound r hr
      rw [hrx, hq] at this
      simp only [updTriple] at this
      exact absurd this (lt_irrefl _)
    · exact List.mem_append_left _ hlog
    · exact hRid
  · rw [hinv_log]
    unfold tg_load
    exact foldl_index_lookup σ.log _ tid R hlogids hlog hRid

/-- Witness for temporal_log_roundtrip: one fact added at time 0, updated at
time 1. -/
theorem temporal_log_roundtrip_witness :
    (alookup tgDemo1.triples 0 = some tgRec1 ∧ tgRec1 ∈ tgDemo1.log ∧
      tgRec1.valid_to = none) ∧
    ((tg_update tgDemo1 0 (some "d") none none 1).2.log
        = tgDemo1.log ++ [updTriple tgDemo1 0 tgRec1 (some "d") none none 1] ∧
     alookup (tg_load (tg_update tgDemo1 0 (some "d") none none 1).2.log).triples 0
        = some tgRec1) :=
  ⟨⟨rfl, List.mem_singleton.mpr rfl, rfl⟩,
    (temporal_log_roundtrip tgDemo1 0 tgRec1 tgRec1 (some "d") none none 1 5 rfl
        (List.mem_singleton.mpr rfl) rfl rfl (by decide)
        (fun r hr => by
          rw [List.mem_singleton.mp hr]
          decide)).1,
    ((temporal_log_roundtrip tgDemo1 0 tgRec1 tgRec1 (some "d") none none 1 5 rfl
        (List.mem_singleton.mpr rfl) rfl rfl (by decide)
        (fun r hr => by
          rw [List.mem_singleton.mp hr]
          decide)).2.2.2.1)⟩

theorem query_at_time_mem (σ : TGState) (pt : ℚ) (s p o : Option String)
    (t : TemporalTriple) (ht : t ∈ query_at_time σ pt s p o) :
    ∃ e ∈ σ.triples, e.2 = t := by
  unfold query_at_time at ht
  obtain ⟨e, he, heq⟩ := List.mem_filterMap.mp ht
  split at heq
  · exact ⟨e, he, Option.some.inj heq⟩
  · cases heq

/-- C1 (amended): updating a currently open version (valid_to = null) of a
well-formed store closes the prior version with valid_to = now, returns a new
version with valid_from = now, version = old.version + 1 and supersedes = old
id; and — provided updates are applied only to open versions, so that the
at-most-one-open-version-per-(subject, predicate) invariant holds beforehand —
the invariant is preserved and query_at_time at any instant returns at most
one version per (subject, predicate) pair with valid_to = null.  (The claim's
unconditional uniqueness fails when update is applied to an already closed
version; see the counterexample.) -/
theorem update_temporal_correct (σ : TGState) (tid : ℕ) (old : TemporalTriple)
    (new_object : Option String) (new_confidence : Option ℚ) (vt : Option ℚ) (now : ℚ)
    (hwf : TGWF σ) (huniq : openUnique σ)
    (hfound : alookup σ.triples tid = some old) (hopen : old.valid_to = none) :
    (tg_update σ tid new_object new_confidence vt now).1 = some σ.nextId ∧
    (alookup (tg_update σ tid new_object new_confidence vt now).2.triples tid
        = some { old with valid_to := some now }) ∧
    (∃ newT, alookup (tg_update σ tid new_object new_confidence vt now).2.triples σ.nextId
        = some newT ∧ newT.valid_from = now ∧ newT.version = old.version + 1 ∧
        newT.supersedes = some tid ∧ newT.valid_to = vt) ∧
    TGWF (tg_update σ tid new_object new_confidence vt now).2 ∧
    openUnique (tg_update σ tid new_object new_confidence vt now).2 ∧
    (∀ pt s p o, ∀ t1 ∈ query_at_time (tg_update σ tid new_object new_confidence vt now).2
        pt s p o,
      ∀ t2 ∈ query_at_time (tg_update σ tid new_object new_confidence vt now).2 pt s p o,
      t1.subject = t2.subject → t1.predicate = t2.predicate →
      t1.valid_to = none → t2.valid_to = none → t1 = t2) := by
  have hres := tg_update_eq σ tid new_object new_confidence vt now old hfound
  have hmem_old : (tid, old) ∈ σ.triples := mem_of_alookup_eq_some _ _ _ hfound
  have hold_id : old.id = tid := (hwf.2 _ hmem_old).1
  have htid_lt : tid < σ.nextId := (hwf.2 _ hmem_old).2
  have htid_ne : tid ≠ σ.nextId := Nat.ne_of_lt htid_lt
  have hfresh : σ.nextId ∉ σ.triples.map Prod.fst := by
    intro hq
    obtain ⟨e, he, heq⟩ := List.mem_map.mp hq
    exact absurd (heq ▸ (hwf.2 e he).2) (lt_irrefl _)
  have hkeys : ((tg_update σ tid new_object new_confidence vt now).2.triples.map Prod.fst)
      = σ.triples.map Prod.fst ++ [σ.nextId] := by
    rw [hres]
    simp only
    rw [ainsert_map_fst_of_not_mem _ _ _ (by rw [amodify_map_fst]; exact hfresh),
      amodify_map_fst]
  have hnodup : ((tg_update σ tid new_object new_confidence vt now).2.triples.map
      Prod.fst).Nodup := by
    rw [hkeys, List.nodup_append]
    exact ⟨hwf.1, List.nodup_singleton _, fun x hx => by
      simp only [List.mem_singleton]
      intro hq
      obtain ⟨e, he, heq⟩ := List.mem_map.mp hx
      exact absurd ((heq.trans hq) ▸ (hwf.2 e he).2) (lt_irrefl _)⟩
  have hlook : ∀ x, alookup (tg_update σ tid new_object new_confidence vt now).2.triples x
      = if x = σ.nextId then some (updTriple σ tid old new_object new_confidence vt now)
        else if x = tid then some { old with valid_to := some now }
        else alookup σ.triples x := by
    intro x
    rw [hres]
    simp only
    by_cases h1 : x = σ.nextId
    · subst h1
      rw [if_pos rfl, alookup_ainsert_self]
    · rw [if_neg h1, alookup_ainsert_ne _ _ _ _ (fun hq => h1 hq.symm)]
      by_cases h2 : x = tid
      · subst h2
        rw [if_pos rfl, alookup_amodify_self, hfound]
        rfl
      · rw [if_neg h2, alookup_amodify_ne _ _ _ _ (fun hq => h2 hq.symm)]
  have hchar : ∀ e ∈ (tg_update σ tid new_object new_confidence vt now).2.triples,
      e = (σ.nextId, updTriple σ tid old new_object new_confidence vt now) ∨
      e = (tid, { old with valid_to := some now }) ∨
      (e ∈ σ.triples ∧ e.1 ≠ tid ∧ e.1 ≠ σ.nextId) := by
    intro e he
    have hl := alookup_eq_some_of_mem_nodup _ hnodup e he
    rw [hlook e.1] at hl
    by_cases h1 : e.1 = σ.nextId
    · rw [if_pos h1] at hl
      exact Or.inl (Prod.ext h1 (Option.some.inj hl).symm)
    · rw [if_neg h1] at hl
      by_cases h2 : e.1 = tid
      · rw [if_pos h2] at hl
        exact Or.inr (Or.inl (Prod.ext h2 (Option.some.inj hl).symm))
      · rw [if_neg h2] at hl
        have hm : (e.1, e.2) ∈ σ.triples := mem_of_alookup_eq_some _ _ _ hl
        rw [Prod.mk.eta] at hm
        exact Or.inr (Or.inr ⟨hm, h2, h1⟩)
  have horig : ∀ e ∈ σ.triples, e.2.subject = old.subject → e.2.predicate = old.predicate →
      e.2.valid_to = none → e.1 = tid := by
    intro e he hs' hp' ho'
    exact huniq e he (tid, old) hmem_old hs' hp' ho' hopen
  have huniqT : openUnique (tg_update σ tid new_object new_confidence vt now).2 := by
    intro e1 he1 e2 he2 hs hp ho1 ho2
    rcases hchar e1 he1 with h1 | h1 | ⟨hm1, hne1t, _⟩
    · rcases hchar e2 he2 with h2 | h2 | ⟨hm2, hne2t, _⟩
      · rw [h1, h2]
      · subst h2
        simp at ho2
      · subst h1
        have hs2 : e2.2.subject = old.subject := hs.symm
        have hp2 : e2.2.predicate = old.predicate := hp.symm
        exact absurd (horig e2 hm2 hs2 hp2 ho2) hne2t
    · subst h1
      simp at ho1
    · rcases hchar e2 he2 with h2 | h2 | ⟨hm2, hne2t, _⟩
      · subst h2
        have hs1 : e1.2.subject = old.subject := hs
        have hp1 : e1.2.predicate = old.predicate := hp
        exact absurd (horig e1 hm1 hs1 hp1 ho1) hne1t
      · subst h2
        simp at ho2
      · exact huniq e1 hm1 e2 hm2 hs hp ho1 ho2
  refine ⟨?_, ?_, ?_, ?_, huniqT, ?_⟩
  · rw [hres]
  · rw [hlook tid, if_neg htid_ne, if_pos rfl]
  · refine ⟨updTriple σ tid old new_object new_confidence vt now, ?_, rfl, rfl, rfl, rfl⟩
    rw [hlook σ.nextId, if_pos rfl]
  · have hnext : (tg_update σ tid new_object new_confidence vt now).2.nextId
        = σ.nextId + 1 := by rw [hres]
    refine ⟨hnodup, ?_⟩
    intro e he
    rcases hchar e he with h | h | ⟨hmem, _, _⟩
    · subst h
      exact ⟨rfl, by rw [hnext]; exact Nat.lt_succ_self _⟩
    · subst h
      refine ⟨?_, by rw [hnext]; exact Nat.lt_succ_of_lt htid_lt⟩
      simpa using hold_id
    · exact ⟨(hwf.2 e hmem).1, by rw [hnext]; exact Nat.lt_succ_of_lt (hwf.2 e hmem).2⟩
  · intro pt s p o t1 ht1 t2 ht2 hs hp ho1 ho2
    obtain ⟨e1, he1, heq1⟩ := query_at_time_mem _ _ _ _ _ t1 ht1
    obtain ⟨e2, he2, heq2⟩ := query_at_time_mem _ _ _ _ _ t2 ht2
    have hkey : e1.1 = e2.1 := by
      refine huniqT e1 he1 e2 he2 ?_ ?_ ?_ ?_
      · rw [heq1, heq2]; exact hs
      · rw [heq1, heq2]; exact hp
      · rw [heq1]; exact ho1
      · rw [heq2]; exact ho2
    have hv1 := alookup_eq_some_of_mem_nodup _ hnodup e1 he1
    have hv2 := alookup_eq_some_of_mem_nodup _ hnodup e2 he2
    rw [hkey] at hv1
    rw [hv2] at hv1
    rw [← heq1, ← heq2, Option.some.inj hv1]

/-- Witness for update_temporal_correct: updating the open fact of tgDemo1. -/
theorem update_temporal_correct_witness :
    (TGWF tgDemo1 ∧ openUnique tgDemo1 ∧ alookup tgDemo1.triples 0 = some tgRec1 ∧
      tgRec1.valid_to = none) ∧
    (tg_update tgDemo1 0 (some "d") none none 1).1 = some tgDemo1.nextId :=
  ⟨⟨by unfold TGWF; decide, by unfold openUnique; decide, rfl, rfl⟩,
    (update_temporal_correct tgDemo1 0 tgRec1 (some "d") none none 1
      (by unfold TGWF; decide) (by unfold openUnique; decide) rfl rfl).1⟩

/-- C1, counterexample: applying update to an already superseded version
creates a second open version for the same (subject, predicate) pair, neither
explicitly invalidated.  After add("a","b","c") at t = 0, update of id 0 at
t = 1 and a second update of the same id 0 at t = 2, query_at_time at t = 3
with the (subject, predicate) filter returns two distinct versions (ids 1 and
2), both with valid_to = null — refuting the claim's unconditional
at-most-one-open-version property. -/
theorem temporal_double_update_two_open :
    ((query_at_time tgDemo3 3 (some "a") (some "b") none).map
        (fun t => (t.id, t.valid_to)) = [(1, none), (2, none)]) ∧
    ((query_at_time tgDemo3 3 (some "a") (some "b") none).all
        (fun t => t.subject == "a" && t.predicate == "b") = true) := by
  constructor <;>
    norm_num +decide [tgDemo3, tgDemo2, tgDemo1, tg_add, tg_update, updTriple, tgEmpty,
      save_triple, index_triple, indexAppend, ainsert, amodify, alookup, query_at_time,
      tgKeep, TemporalTriple.is_valid_at, List.filterMap]

/-- C5: a consolidate call that fetches fewer successful episodes (valence at
least min_valence, ACTIVE, bounded take of 100) than the effective
min_episodes threshold returns a ConsolidationResult whose five counters are
all zero, with an explanatory message in details, and mutates no episodic,
procedural, graph or consolidation-log state. -/
theorem consolidate_below_threshold (sys : MemSystem) (generalize : String → String)
    (extractMatches : String → List (String × String × String)) (min_episodes : Option ℕ)
    (min_valence : ℚ) (dry_run : Bool) (nowStr cutoff_iso : String)
    (h : (get_successful_episodes sys.episodic min_valence 100).length
        < resolve_min_episodes min_episodes) :
    (consolidate sys generalize extractMatches min_episodes min_valence dry_run
        nowStr cutoff_iso).1.episodes_processed = 0 ∧
    (consolidate sys generalize extractMatches min_episodes min_valence dry_run
        nowStr cutoff_iso).1.skills_created = 0 ∧
    (consolidate sys generalize extractMatches min_episodes min_valence dry_run
        nowStr cutoff_iso).1.skills_updated = 0 ∧
    (consolidate sys generalize extractMatches min_episodes min_valence dry_run
        nowStr cutoff_iso).1.triples_extracted = 0 ∧
    (consolidate sys generalize extractMatches min_episodes min_valence dry_run
        nowStr cutoff_iso).1.episodes_archived = 0 ∧
    (consolidate sys generalize extractMatches min_episodes min_valence dry_run
        nowStr cutoff_iso).1.details.map Prod.fst = ["message"] ∧
    (consolidate sys generalize extractMatches min_episodes min_valence dry_run
        nowStr cutoff_iso).2 = sys := by
  simp only [consolidate]
  rw [if_pos h]
  simp

/-- Witness for consolidate_below_threshold on the empty store with the
default threshold. -/
theorem consolidate_below_threshold_witness :
    (get_successful_episodes sysEmpty.episodic (3 / 10) 100).length
        < resolve_min_episodes none ∧
    (consolidate sysEmpty id (fun _ => []) none (3 / 10) false "T" "C").2 = sysEmpty :=
  ⟨by decide,
    (consolidate_below_threshold sysEmpty id (fun _ => []) none (3 / 10) false "T" "C"
      (by decide)).2.2.2.2.2.2⟩

theorem consolidate_pattern_to_skill_dry (skills : List (String × Skill))
    (generalize : String → String) (pkey : String) (eps : List Episode) (nowStr : String) :
    (consolidate_pattern_to_skill skills generalize pkey eps true nowStr).2 = skills := by
  unfold consolidate_pattern_to_skill
  cases h : get_skill_by_name skills ("skill_" ++ pkey) <;> simp [h]

theorem consolidate_group_step_dry (generalize : String → String) (nowStr : String)
    (acc : ConsAcc) (g : String × List Episode) :
    (consolidate_group_step generalize true nowStr acc g).episodic = acc.episodic ∧
    (consolidate_group_step generalize true nowStr acc g).skills = acc.skills := by
  unfold consolidate_group_step
  by_cases hlen : g.2.length < 3
  · simp [hlen]
  · simp only [hlen, if_false, if_neg, not_false_iff]
    cases hsid : (consolidate_pattern_to_skill acc.skills generalize g.1 g.2 true nowStr).1.skill_id <;>
      simp [hsid, consolidate_pattern_to_skill_dry]

theorem foldl_group_step_dry (generalize : String → String) (nowStr : String) :
    ∀ (groups : List (String × List Episode)) (acc : ConsAcc),
      (groups.foldl (consolidate_group_step generalize true nowStr) acc).episodic
          = acc.episodic ∧
      (groups.foldl (consolidate_group_step generalize true nowStr) acc).skills
          = acc.skills := by
  intro groups
  induction groups with
  | nil => intro acc; exact ⟨rfl, rfl⟩
  | cons hd tl ih =>
      intro acc
      simp only [List.foldl_cons]
      obtain ⟨h1, h2⟩ := ih (consolidate_group_step generalize true nowStr acc hd)
      obtain ⟨g1, g2⟩ := consolidate_group_step_dry generalize nowStr acc hd
      exact ⟨h1.trans g1, h2.trans g2⟩

theorem consolidate_extract_dry (extractMatches : String → List (String × String × String))
    (nowStr : String) : ∀ (successful : List Episode) (kg : KGState),
    consolidate_extract extractMatches true nowStr kg successful = (0, kg) := by
  intro successful
  unfold consolidate_extract
  induction successful with
  | nil => intro kg; rfl
  | cons hd tl ih =>
      intro kg
      simp only [List.foldl_cons]
      have hstep : extract_knowledge_from_episode kg extractMatches hd true nowStr
          = (0, kg) := rfl
      simpa [hstep] using ih kg

/-- C9 (amended): a dry consolidate run over at least min_episodes successful
episodes performs only the step 1-3 analysis: the episodic cache, procedural
skills and knowledge graph are unchanged (no episode marked CONSOLIDATED, no
skill or triple written, triples_extracted = 0, nothing archived) — but a
persisted ConsolidationResult log entry IS produced, because the source logs
unconditionally. -/
theorem consolidate_dry_run_frame (sys : MemSystem) (generalize : String → String)
    (extractMatches : String → List (String × String × String)) (min_episodes : Option ℕ)
    (min_valence : ℚ) (nowStr cutoff_iso : String)
    (h : ¬ (get_successful_episodes sys.episodic min_valence 100).length
        < resolve_min_episodes min_episodes) :
    (consolidate sys generalize extractMatches min_episodes min_valence true
        nowStr cutoff_iso).2.episodic = sys.episodic ∧
    (consolidate sys generalize extractMatches min_episodes min_valence true
        nowStr cutoff_iso).2.skills = sys.skills ∧
    (consolidate sys generalize extractMatches min_episodes min_valence true
        nowStr cutoff_iso).2.kg = sys.kg ∧
    (consolidate sys generalize extractMatches min_episodes min_valence true
        nowStr cutoff_iso).2.logs = sys.logs ++
      [(consolidate sys generalize extractMatches min_episodes min_valence true
        nowStr cutoff_iso).1] ∧
    (consolidate sys generalize extractMatches min_episodes min_valence true
        nowStr cutoff_iso).1.triples_extracted = 0 ∧
    (consolidate sys generalize extractMatches min_episodes min_valence true
        nowStr cutoff_iso).1.episodes_archived = 0 := by
  simp only [consolidate]
  rw [if_neg h]
  simp only [consolidate_extract_dry, if_true]
  obtain ⟨he, hs⟩ := foldl_group_step_dry generalize nowStr
    (group_by_pattern (get_successful_episodes sys.episodic min_valence 100))
    { episodic := sys.episodic, skills := sys.skills, created := 0, updated := 0 }
  refine ⟨he, hs, by simp, by simp, by simp, by simp⟩

/-- Witness for consolidate_dry_run_frame on a one-episode store with
min_episodes 1. -/
theorem consolidate_dry_run_frame_witness :
    ¬ (get_successful_episodes sysDemo.episodic 0 100).length
        < resolve_min_episodes (some 1) ∧
    (consolidate sysDemo id (fun _ => []) (some 1) 0 true "T" "C").2.episodic
        = sysDemo.episodic :=
  ⟨by decide,
    (consolidate_dry_run_frame sysDemo id (fun _ => []) (some 1) 0 "T" "C" (by decide)).1⟩

/-- C9, counterexample: a dry run over enough successful episodes still
persists a ConsolidationResult log entry — the claim that no log entry is
produced in dry runs is false (memory_consolidator calls _log_consolidation
unconditionally before returning). -/
theorem consolidate_dry_run_writes_log :
    (consolidate sysDemo id (fun _ => []) (some 1) 0 true "T" "C").2.logs.length = 1 ∧
    sysDemo.logs.length = 0 ∧
    ¬ (get_successful_episodes sysDemo.episodic 0 100).length
        < resolve_min_episodes (some 1) := by
  refine ⟨?_, rfl, by decide⟩
  decide

theorem existingCheck_congr (g1 g2 : List (String × KTriple)) (p o : String) (tid : String)
    (h : alookup g1 tid = alookup g2 tid) :
    existingCheck g1 p o tid = existingCheck g2 p o tid := by
  unfold existingCheck
  rw [h]



theorem add_triple_fresh (σ : KGState) (s p o : String) (c1 : ℚ)
    (src1 : Option String) (n1 : String)
    (hfresh : find_existing_triple σ s p o = none) :
    add_triple σ s p o c1 src1 n1 =
      (kgId s p o,
        { graph := ainsert σ.graph (kgId s p o) (freshTriple s p o c1 src1 n1)
          subject_index := indexAdd σ.subject_index s.toLower (kgId s p o)
          object_index := indexAdd σ.object_index o.toLower (kgId s p o)
          predicate_index := indexAdd σ.predicate_index p.toLower (kgId s p o) }) := by
  unfold add_triple freshTriple
  rw [hfresh]

theorem add_triple_existing (σ : KGState) (s p o : String) (c2 : ℚ)
    (src2 : Option String) (n2 : String) (tid : String) (t : KTriple)
    (hfind : find_existing_triple σ s p o = some tid)
    (hlook : alookup σ.graph tid = some t) :
    add_triple σ s p o c2 src2 n2 =
      (tid,
        if t.confidence < c2 then
          { σ with graph :=
              amodify σ.graph tid (fun u =>
                { u with confidence := c2, updated_at := n2 }) }
        else σ) := by
  unfold add_triple
  simp only [hfind, hlook, Option.map_some', Option.getD_some]
  by_cases hc : t.confidence < c2
  · rw [if_pos hc, if_pos hc]
  · rw [if_neg hc, if_neg hc]

theorem find_existing_after_insert (σ : KGState) (s p o : String) (c1 : ℚ)
    (src1 : Option String) (n1 : String)
    (hfresh : find_existing_triple σ s p o = none) :
    find_existing_triple (add_triple σ s p o c1 src1 n1).2 s p o = some (kgId s p o) := by
  rw [add_triple_fresh σ s p o c1 src1 n1 hfresh]
  unfold find_existing_triple at hfresh ⊢
  simp only
  obtain ⟨ids, hids, htid, hsub⟩ := indexAdd_lookup_self σ.subject_index s.toLower (kgId s p o)
  rw [hids]
  simp only [Option.getD_some]
  have hold : ∀ x ∈ (alookup σ.subject_index s.toLower).getD [],
      existingCheck σ.graph p o x = false := by
    intro x hx
    have := List.find?_eq_none.mp hfresh x hx
    simpa using this
  apply find?_eq_some_of_unique
  · intro x hx hpx
    by_contra hne
    rcases hsub x hx with hxold | hxeq
    · have hrw : existingCheck (ainsert σ.graph (kgId s p o) (freshTriple s p o c1 src1 n1)) p o x
          = existingCheck σ.graph p o x :=
        existingCheck_congr _ _ p o x
          (alookup_ainsert_ne σ.graph (kgId s p o) x (freshTriple s p o c1 src1 n1)
            (fun h => hne h.symm))
      rw [hrw, hold x hxold] at hpx
      exact Bool.false_ne_true hpx
    · exact hne hxeq
  · exact htid
  · unfold existingCheck
    rw [alookup_ainsert_self]
    simp [freshTriple]

/-- C2: starting from a store with no structurally identical triple, two
add_triple calls with the same (subject, predicate, object) and any two
confidences return the same identifier both times, leave exactly one stored
triple with that structural identity, and leave its confidence equal to the
max of the two calls' confidences. -/
theorem add_triple_idempotent (σ : KGState) (s p o : String) (c1 c2 : ℚ)
    (src1 src2 : Option String) (n1 n2 : String)
    (hfresh : find_existing_triple σ s p o = none)
    (hnone : ∀ e ∈ σ.graph, structMatch e.2 s p o = false) :
    (add_triple (add_triple σ s p o c1 src1 n1).2 s p o c2 src2 n2).1
        = (add_triple σ s p o c1 src1 n1).1 ∧
    ((add_triple (add_triple σ s p o c1 src1 n1).2 s p o c2 src2 n2).2.graph.filter
        (fun e => structMatch e.2 s p o)).length = 1 ∧
    (alookup (add_triple (add_triple σ s p o c1 src1 n1).2 s p o c2 src2 n2).2.graph
        (add_triple σ s p o c1 src1 n1).1).map KTriple.confidence = some (max c1 c2) := by
  have hexist := find_existing_after_insert σ s p o c1 src1 n1 hfresh
  have hfresh1 := add_triple_fresh σ s p o c1 src1 n1 hfresh
  have hfst : (add_triple σ s p o c1 src1 n1).1 = kgId s p o := by rw [hfresh1]
  have hgraph1 : (add_triple σ s p o c1 src1 n1).2.graph
      = ainsert σ.graph (kgId s p o) (freshTriple s p o c1 src1 n1) := by rw [hfresh1]
  have hlook1 : alookup (add_triple σ s p o c1 src1 n1).2.graph (kgId s p o)
      = some (freshTriple s p o c1 src1 n1) := by
    rw [hgraph1]; exact alookup_ainsert_self _ _ _
  have hmatch1 : structMatch (freshTriple s p o c1 src1 n1) s p o = true := by
    simp [structMatch, freshTriple]
  have hconf1 : (freshTriple s p o c1 src1 n1).confidence = c1 := rfl
  have hsecond := add_triple_existing (add_triple σ s p o c1 src1 n1).2 s p o c2 src2 n2
    (kgId s p o) (freshTriple s p o c1 src1 n1) hexist hlook1
  rw [hsecond, hconf1, hfst]
  by_cases hc : c1 < c2
  · rw [if_pos hc]
    have hamod : amodify (add_triple σ s p o c1 src1 n1).2.graph (kgId s p o)
        (fun u => { u with confidence := c2, updated_at := n2 })
        = ainsert σ.graph (kgId s p o)
            { freshTriple s p o c1 src1 n1 with confidence := c2, updated_at := n2 } := by
      rw [hgraph1, amodify_ainsert]
    refine ⟨rfl, ?_, ?_⟩
    · simp only [hamod]
      rw [filter_ainsert_of_none σ.graph (kgId s p o) _ (fun t => structMatch t s p o) hnone]
      have hm2 : structMatch
          { freshTriple s p o c1 src1 n1 with confidence := c2, updated_at := n2 } s p o
          = true := by
        simp [structMatch, freshTriple]
      rw [hm2]
      rfl
    · simp only [hamod]
      rw [alookup_ainsert_self]
      simp [max_eq_right hc.le]
  · rw [if_neg hc]
    refine ⟨rfl, ?_, ?_⟩
    · rw [hgraph1, filter_ainsert_of_none σ.graph (kgId s p o) _ (fun t => structMatch t s p o)
        hnone, hmatch1]
      rfl
    · rw [hlook1]
      simp [freshTriple, max_eq_left (not_lt.mp hc)]

/-- Witness for add_triple_idempotent: two inserts of the same triple into the
empty store. -/
theorem add_triple_idempotent_witness :
    find_existing_triple kgEmpty "Aura" "uses" "Linux" = none ∧
    (∀ e ∈ kgEmpty.graph, structMatch e.2 "Aura" "uses" "Linux" = false) ∧
    (add_triple (add_triple kgEmpty "Aura" "uses" "Linux" (1 / 2) none "T1").2
        "Aura" "uses" "Linux" (7 / 10) none "T2").1
      = (add_triple kgEmpty "Aura" "uses" "Linux" (1 / 2) none "T1").1 :=
  ⟨rfl, fun e he => absurd he (List.not_mem_nil e),
    (add_triple_idempotent kgEmpty "Aura" "uses" "Linux" (1 / 2) (7 / 10) none none "T1" "T2"
      rfl (fun e he => absurd he (List.not_mem_nil e))).1⟩

/-- Witness for record_usage_correct on a concrete one-skill cache. -/
theorem record_usage_correct_witness :
    alookup [("a", sampleSkill)] "a" = some sampleSkill ∧
    ((record_usage [("a", sampleSkill)] "a" true "T").1 = true ∧
      alookup (record_usage [("a", sampleSkill)] "a" true "T").2 "a" = some
        { sampleSkill with
          usage_count := sampleSkill.usage_count + 1
          success_rate := sampleSkill.success_rate *
              (1 - 1 / ((sampleSkill.usage_count : ℚ) + 1)) +
            (if true then (1 : ℚ) else 0) * (1 / ((sampleSkill.usage_count : ℚ) + 1))
          updated_at := "T" }) :=
  ⟨by rfl, (record_usage_correct [("a", sampleSkill)] "a" sampleSkill true "T" (by rfl)).1⟩

